import Mathlib

/-!
Verification of the flint B-tree table implementation
(`backends/flint/flint_table.cc`).

The development shallowly embeds the data model and the algorithms of the
source file: keys with their comparison order (`Key_::operator<`,
`Key_::operator==`), the binary-chop search (`find_in_block`, `find`),
block compaction and item insertion (`compact`, `add_item_to_block`,
`mid_point`, `add_item`, `delete_item`), separator-key derivation
(`enter_key`), the tag-compression step of `add`, the key-length checks of
`del` / `get_exact_entry` / `form_key`, the revision precondition of
`commit`, `block_to_cursor` with `set_overwritten`, and `set_block_size`.

Machine integers are modelled as `Nat`/`Int`; byte buffers as `List Nat`;
fallible operations return a value paired with an optional error.
-/

namespace Flint

/-! ### Keys

An item key consists of the key body (the bytes the caller supplied) and a
2-byte component counter, stored big-endian directly after the body
(`I K key x C tag`; the counter `x` takes part in the comparison order).
`Key_::length()` returns the length of the body alone.
-/

/-- A key: body bytes plus the component counter that follows them. -/
structure Key where
  body : List Nat
  count : Nat
deriving DecidableEq, Repr

/-- The two counter bytes as stored on disk (big-endian). -/
def countBytes (k : Key) : List Nat := [k.count / 256 % 256, k.count % 256]

/-- The byte sequence starting at `p + K1`: body followed by counter bytes. -/
def keyBytes (k : Key) : List Nat := k.body ++ countBytes k

/-- C `memcmp` on byte sequences (the embedding always passes two sequences
of the length being compared, so the length argument is implicit in the
list arguments). -/
def memcmp : List Nat → List Nat → Int
  | [], _ => 0
  | _ :: _, [] => 0
  | a :: as, b :: bs => if a < b then -1 else if b < a then 1 else memcmp as bs

/-- `Key_::operator<` (flint_table.cc): equal body lengths compare the body
and counter bytes in one `memcmp`; otherwise the common body part decides,
and if it is equal the shorter key is smaller. -/
def Key.lt (k1 k2 : Key) : Bool :=
  let key1_len := k1.body.length
  let key2_len := k2.body.length
  if key1_len = key2_len then
    decide (memcmp (keyBytes k1) (keyBytes k2) < 0)
  else
    let k_smaller := min key1_len key2_len
    let diff := memcmp (k1.body.take k_smaller) (k2.body.take k_smaller)
    if diff ≠ 0 then decide (diff < 0) else decide (key1_len < key2_len)

/-- `Key_::operator==` (flint_table.cc). -/
def Key.eq (k1 k2 : Key) : Bool :=
  if k1.body.length = k2.body.length then
    decide (memcmp (keyBytes k1) (keyBytes k2) = 0)
  else false

/-- `Key_::operator<=` (flint_table.h, the usual complement of `<`). -/
def Key.le (k1 k2 : Key) : Bool := ! Key.lt k2 k1

/-! #### Reference order

`Key.lt` is shown to coincide with the lexicographic order on the pair
(body, counter bytes): body bytes compare lexicographically with a proper
initial segment sorting first, and only equal bodies fall back to the
counter bytes.  The list order used is Mathlib's `List.Lex (· < ·)`.
-/

/-- The reference strict order on keys. -/
def KeyLT (k1 k2 : Key) : Prop :=
  k1.body < k2.body ∨ (k1.body = k2.body ∧ countBytes k1 < countBytes k2)

/-- The reference equivalence on keys: same stored bytes. -/
def KeyEqv (k1 k2 : Key) : Prop :=
  k1.body = k2.body ∧ countBytes k1 = countBytes k2

theorem list_lt_iff_lex {a b : List Nat} : a < b ↔ List.Lex (· < ·) a b :=
  Iff.rfl

theorem memcmp_eq_zero_iff :
    ∀ {a b : List Nat}, a.length = b.length → (memcmp a b = 0 ↔ a = b) := by
  intro a
  induction a with
  | nil => intro b h; cases b <;> simp_all [memcmp]
  | cons x xs ih =>
    intro b h
    cases b with
    | nil => simp at h
    | cons y ys =>
      simp only [List.length_cons, Nat.succ.injEq] at h
      by_cases hxy : x < y
      · simp [memcmp, hxy]
        intro hc; omega
      · by_cases hyx : y < x
        · simp [memcmp, hxy, hyx]
          intro hc; omega
        · have hxey : x = y := Nat.le_antisymm (Nat.le_of_not_lt hyx) (Nat.le_of_not_lt hxy)
          simp [memcmp, hxy, hyx, hxey, ih h]

theorem memcmp_neg_iff :
    ∀ {a b : List Nat}, a.length = b.length →
      (memcmp a b < 0 ↔ List.Lex (· < ·) a b) := by
  intro a
  induction a with
  | nil =>
    intro b h
    cases b
    · simp [memcmp]
    · simp at h
  | cons x xs ih =>
    intro b h
    cases b with
    | nil => simp at h
    | cons y ys =>
      simp only [List.length_cons, Nat.succ.injEq] at h
      by_cases hxy : x < y
      · simp only [memcmp, if_pos hxy]
        constructor
        · intro _; exact List.Lex.rel hxy
        · intro _; omega
      · by_cases hyx : y < x
        · simp only [memcmp, if_neg hxy, if_pos hyx]
          constructor
          · intro hc; omega
          · intro hlex
            cases hlex with
            | cons htail => omega
            | rel hr => omega
        · have hxey : x = y := Nat.le_antisymm (Nat.le_of_not_lt hyx) (Nat.le_of_not_lt hxy)
          subst hxey
          simp only [memcmp, if_neg hxy, if_neg hyx]
          rw [ih h]
          constructor
          · exact List.Lex.cons
          · intro hlex
            exact (List.Lex.cons_iff).mp hlex

theorem lex_append_iff {a b c d : List Nat} (h : a.length = b.length) :
    List.Lex (· < ·) (a ++ c) (b ++ d) ↔
      List.Lex (· < ·) a b ∨ (a = b ∧ List.Lex (· < ·) c d) := by
  induction a generalizing b with
  | nil =>
    cases b
    · simp
    · simp at h
  | cons x xs ih =>
    cases b with
    | nil => simp at h
    | cons y ys =>
      simp only [List.length_cons, Nat.succ.injEq] at h
      constructor
      · intro hlex
        cases hlex with
        | cons htail =>
          rcases (ih h).mp htail with h1 | ⟨h1, h2⟩
          · exact Or.inl (List.Lex.cons h1)
          · exact Or.inr ⟨by rw [h1], h2⟩
        | rel hr => exact Or.inl (List.Lex.rel hr)
      · intro hor
        rcases hor with h1 | ⟨h1, h2⟩
        · cases h1 with
          | cons htail => exact List.Lex.cons ((ih h).mpr (Or.inl htail))
          | rel hr => exact List.Lex.rel hr
        · cases h1
          exact List.Lex.cons ((ih h).mpr (Or.inr ⟨rfl, h2⟩))

theorem lex_append_self (a : List Nat) {c : List Nat} (hc : c ≠ []) :
    List.Lex (· < ·) a (a ++ c) := by
  induction a with
  | nil =>
    cases c
    · exact absurd rfl hc
    · exact List.Lex.nil
  | cons x xs ih => exact List.Lex.cons ih

theorem lex_take_iff :
    ∀ (m : Nat) (a b : List Nat), a.take m ≠ b.take m →
      (List.Lex (· < ·) a b ↔ List.Lex (· < ·) (a.take m) (b.take m)) := by
  intro m
  induction m with
  | zero => intro a b h; simp at h
  | succ n ih =>
    intro a b h
    cases a with
    | nil =>
      cases b with
      | nil => simp at h
      | cons y ys =>
        simp only [List.take_nil, List.take_succ_cons]
        constructor
        · intro _; exact List.Lex.nil
        · intro _; exact List.Lex.nil
    | cons x xs =>
      cases b with
      | nil => simp
      | cons y ys =>
        simp only [List.take_succ_cons] at h ⊢
        by_cases hxy : x = y
        · subst hxy
          have hne : xs.take n ≠ ys.take n := by
            intro hc; exact h (by rw [hc])
          rw [List.Lex.cons_iff, List.Lex.cons_iff]
          exact ih xs ys hne
        · constructor
          · intro hlex
            cases hlex with
            | cons _ => exact absurd rfl hxy
            | rel hr => exact List.Lex.rel hr
          · intro hlex
            cases hlex with
            | cons _ => exact absurd rfl hxy
            | rel hr => exact List.Lex.rel hr

theorem take_min_eq_imp_not_lt {a b : List Nat}
    (hlen : a.length < b.length) (heq : a.take (min a.length b.length) = b.take (min a.length b.length)) :
    a = b.take a.length := by
  have hm : min a.length b.length = a.length := Nat.min_eq_left (Nat.le_of_lt hlen)
  rw [hm] at heq
  simpa using heq

/-- `Key.lt` computes the reference order. -/
theorem Key.lt_iff (k1 k2 : Key) : Key.lt k1 k2 = true ↔ KeyLT k1 k2 := by
  unfold Key.lt KeyLT
  by_cases hlen : k1.body.length = k2.body.length
  · rw [if_pos hlen]
    simp only [decide_eq_true_eq]
    have hkb : (keyBytes k1).length = (keyBytes k2).length := by
      simp [keyBytes, countBytes, hlen]
    rw [memcmp_neg_iff hkb]
    unfold keyBytes
    rw [lex_append_iff hlen]
    rw [list_lt_iff_lex, list_lt_iff_lex]
  · simp only [if_neg hlen]
    have hth : k1.body ≠ k2.body := fun hc => hlen (by rw [hc])
    have htlen : (k1.body.take (min k1.body.length k2.body.length)).length
        = (k2.body.take (min k1.body.length k2.body.length)).length := by
      simp [Nat.min_comm]
    by_cases hdz : memcmp (k1.body.take (min k1.body.length k2.body.length))
        (k2.body.take (min k1.body.length k2.body.length)) = 0
    · have hteq := (memcmp_eq_zero_iff htlen).mp hdz
      simp only [hdz, ne_eq, not_true_eq_false, if_false, decide_eq_true_eq]
      constructor
      · intro hl
        left
        rw [list_lt_iff_lex]
        have hpre : k1.body = k2.body.take k1.body.length :=
          take_min_eq_imp_not_lt hl hteq
        have : k2.body = k1.body ++ k2.body.drop k1.body.length := by
          conv_lhs => rw [← List.take_append_drop k1.body.length k2.body]
          rw [← hpre]
        rw [this]
        apply lex_append_self
        intro hc
        have := congrArg List.length hc
        simp at this
        omega
      · intro hor
        rcases hor with hb | ⟨hb, _⟩
        · rcases Nat.lt_trichotomy k1.body.length k2.body.length with h | h | h
          · exact h
          · exact absurd h hlen
          · exfalso
            have hpre : k2.body = k1.body.take k2.body.length := by
              have hm : min k1.body.length k2.body.length = k2.body.length :=
                Nat.min_eq_right (Nat.le_of_lt h)
              rw [hm] at hteq
              simpa using hteq.symm
            have hb2 : k1.body = k2.body ++ k1.body.drop k2.body.length := by
              conv_lhs => rw [← List.take_append_drop k2.body.length k1.body]
              rw [← hpre]
            have : k2.body < k1.body := by
              rw [list_lt_iff_lex, hb2]
              apply lex_append_self
              intro hc
              have := congrArg List.length hc
              simp at this
              omega
            exact absurd hb (not_lt_of_gt this)
        · exact absurd hb hth
    · simp only [hdz, ne_eq, not_false_eq_true, if_true, decide_eq_true_eq]
      have htne : k1.body.take (min k1.body.length k2.body.length)
          ≠ k2.body.take (min k1.body.length k2.body.length) := by
        intro hc; exact hdz ((memcmp_eq_zero_iff htlen).mpr hc)
      rw [memcmp_neg_iff htlen]
      rw [← lex_take_iff _ _ _ htne]
      constructor
      · intro h; exact Or.inl (list_lt_iff_lex.mpr h)
      · intro hor
        rcases hor with hb | ⟨hb, _⟩
        · exact list_lt_iff_lex.mp hb
        · exact absurd hb hth

/-- `Key.eq` computes byte-identity of the stored key. -/
theorem Key.eq_iff (k1 k2 : Key) : Key.eq k1 k2 = true ↔ KeyEqv k1 k2 := by
  unfold Key.eq KeyEqv
  by_cases hlen : k1.body.length = k2.body.length
  · rw [if_pos hlen]
    simp only [decide_eq_true_eq]
    have hkb : (keyBytes k1).length = (keyBytes k2).length := by
      simp [keyBytes, countBytes, hlen]
    rw [memcmp_eq_zero_iff hkb]
    unfold keyBytes
    constructor
    · intro h
      exact List.append_inj h hlen
    · intro ⟨h1, h2⟩
      rw [h1, h2]
  · rw [if_neg hlen]
    simp only [Bool.false_eq_true, false_iff, not_and]
    intro hb
    exact absurd (by rw [hb]) hlen

theorem keyLT_irrefl (k : Key) : ¬ KeyLT k k := by
  intro h
  rcases h with h | ⟨_, h⟩
  · exact lt_irrefl _ h
  · exact lt_irrefl _ h

theorem keyLT_trans {a b c : Key} (h1 : KeyLT a b) (h2 : KeyLT b c) : KeyLT a c := by
  rcases h1 with h1 | ⟨e1, h1⟩ <;> rcases h2 with h2 | ⟨e2, h2⟩
  · exact Or.inl (lt_trans h1 h2)
  · exact Or.inl (e2 ▸ h1)
  · exact Or.inl (e1 ▸ h2)
  · exact Or.inr ⟨e1.trans e2, lt_trans h1 h2⟩

theorem keyLT_asymm {a b : Key} (h1 : KeyLT a b) : ¬ KeyLT b a := fun h2 =>
  keyLT_irrefl a (keyLT_trans h1 h2)

theorem keyLT_trichotomy (a b : Key) : KeyLT a b ∨ KeyEqv a b ∨ KeyLT b a := by
  rcases lt_trichotomy a.body b.body with h | h | h
  · exact Or.inl (Or.inl h)
  · rcases lt_trichotomy (countBytes a) (countBytes b) with h2 | h2 | h2
    · exact Or.inl (Or.inr ⟨h, h2⟩)
    · exact Or.inr (Or.inl ⟨h, h2⟩)
    · exact Or.inr (Or.inr (Or.inr ⟨h.symm, h2⟩))
  · exact Or.inr (Or.inr (Or.inl h))

theorem keyEqv_not_lt {a b : Key} (h : KeyEqv a b) : ¬ KeyLT a b := by
  intro hl
  rcases hl with hl | ⟨_, hl⟩
  · rw [h.1] at hl; exact lt_irrefl _ hl
  · rw [h.2] at hl; exact lt_irrefl _ hl

theorem keyEqv_symm {a b : Key} (h : KeyEqv a b) : KeyEqv b a := ⟨h.1.symm, h.2.symm⟩

theorem keyEqv_lt_congr_left {a b c : Key} (h : KeyEqv a b) : KeyLT a c ↔ KeyLT b c := by
  unfold KeyLT
  rw [h.1, h.2]

theorem keyEqv_lt_congr_right {a b c : Key} (h : KeyEqv a b) : KeyLT c a ↔ KeyLT c b := by
  unfold KeyLT
  rw [h.1, h.2]

/-- `Key.le` holds exactly when the reverse strict order does not. -/
theorem Key.le_iff (k1 k2 : Key) : Key.le k1 k2 = true ↔ ¬ KeyLT k2 k1 := by
  unfold Key.le
  rw [Bool.not_eq_true']
  rw [← Bool.not_eq_true (Key.lt k2 k1)] at *
  constructor
  · intro h hc
    exact absurd ((Key.lt_iff k2 k1).mpr hc) (by simp [h])
  · intro h
    by_cases hb : Key.lt k2 k1 = true
    · exact absurd ((Key.lt_iff k2 k1).mp hb) h
    · simpa using hb

theorem key_le_of_lt {a b : Key} (h : KeyLT a b) : Key.le a b = true :=
  (Key.le_iff a b).mpr (keyLT_asymm h)

theorem key_le_of_eqv {a b : Key} (h : KeyEqv a b) : Key.le a b = true :=
  (Key.le_iff a b).mpr (keyEqv_not_lt (keyEqv_symm h))

theorem keyLT_or_eqv_of_le {a b : Key} (h : Key.le a b = true) :
    KeyLT a b ∨ KeyEqv a b := by
  have hn := (Key.le_iff a b).mp h
  rcases keyLT_trichotomy a b with h1 | h1 | h1
  · exact Or.inl h1
  · exact Or.inr h1
  · exact absurd h1 hn

/-! ### Searching within a block

`find_in_block(p, key, leaf, c)` (flint_table.cc).  A block's directory is
modelled by the list of its keys in slot order; slot offsets keep the
source's arithmetic: `DIR_START = 11`, slots are `D2 = 2` bytes wide, so
the i-th directory entry lives at offset `11 + 2*i` and
`DIR_END = 11 + 2*N`.
-/

/-- The null key used as an out-of-range default (never compared by the
algorithms under the hypotheses proved below). -/
def nullKey : Key := ⟨[], 0⟩

/-- The key stored at slot offset `c` of a directory. -/
def keyAt (ks : List Key) (c : Int) : Key := ks.getD ((c - 11) / 2).toNat nullKey

/-- `DIR_END` of a block holding the directory `ks`. -/
def dirEndOf (ks : List Key) : Int := 11 + 2 * ks.length

/-- The binary-chop loop of `find_in_block`:
`while (j - i > D2) { k = i + ((j - i)/(D2*2))*D2; if (key < key(k)) j = k; else i = k; }`.
The inner guard `i < k ∧ k < j` cannot fail when `i` and `j` are aligned
slot offsets (shown in `fib_loop_spec`); it makes the recursion total. -/
def find_in_block_loop (ks : List Key) (key : Key) (i j : Int) : Int :=
  if 2 < j - i then
    let k := i + ((j - i) / 4) * 2
    if _h2 : i < k ∧ k < j then
      if Key.lt key (keyAt ks k) then find_in_block_loop ks key i k
      else find_in_block_loop ks key k j
    else i
  else i
termination_by (j - i).toNat
decreasing_by
  · omega
  · omega

/-- `find_in_block` (flint_table.cc): `i` starts at `DIR_START` (one slot
earlier for a leaf), `j` at `DIR_END`; a hint `c ≠ -1` narrows the
bracket by testing slots `c` and `c + D2` before the chop. -/
def find_in_block (ks : List Key) (key : Key) (leaf : Bool) (c : Int) : Int :=
  let i0 : Int := if leaf then 11 - 2 else 11
  let j0 : Int := dirEndOf ks
  if c ≠ -1 then
    let i1 := if c < j0 ∧ i0 < c ∧ Key.le (keyAt ks c) key then c else i0
    let c2 := c + 2
    let j1 := if c2 < j0 ∧ i1 < c2 ∧ Key.lt key (keyAt ks c2) then c2 else j0
    find_in_block_loop ks key i1 j1
  else
    find_in_block_loop ks key i0 j0

/-- Loop invariant of the binary chop.  `lo` is the starting slot
(`DIR_START` or, at a leaf, `DIR_START - D2`); slot `lo` itself is never
compared.  The result slot is the last one whose key is still `≤ key`. -/
theorem fib_loop_spec (ks : List Key) (key : Key) (lo : Int) :
    ∀ n (i j : Int), (j - i).toNat = n →
    lo ≤ i → i < j → j ≤ dirEndOf ks → i % 2 = 1 → j % 2 = 1 →
    (i = lo ∨ Key.le (keyAt ks i) key = true) →
    (j = dirEndOf ks ∨ Key.lt key (keyAt ks j) = true) →
    (lo % 2 = 1) →
    (i ≤ find_in_block_loop ks key i j ∧
     find_in_block_loop ks key i j + 2 ≤ j ∧
     find_in_block_loop ks key i j % 2 = 1 ∧
     (find_in_block_loop ks key i j = lo ∨
       Key.le (keyAt ks (find_in_block_loop ks key i j)) key = true) ∧
     (find_in_block_loop ks key i j + 2 = dirEndOf ks ∨
       Key.lt key (keyAt ks (find_in_block_loop ks key i j + 2)) = true)) := by
  intro n
  induction n using Nat.strong_induction_on with
  | _ n ih =>
    intro i j hn hlo hij hjend hi2 hj2 hPi hQj hlo2
    rw [find_in_block_loop]
    by_cases hgap : 2 < j - i
    · rw [if_pos hgap]
      have hk1 : i < i + ((j - i) / 4) * 2 := by omega
      have hk2 : i + ((j - i) / 4) * 2 < j := by omega
      rw [dif_pos ⟨hk1, hk2⟩]
      by_cases hcmp : Key.lt key (keyAt ks (i + ((j - i) / 4) * 2)) = true
      · rw [if_pos hcmp]
        have hrec := ih ((i + ((j - i) / 4) * 2) - i).toNat (by omega) i
          (i + ((j - i) / 4) * 2) rfl hlo hk1 (by omega) hi2 (by omega) hPi
          (Or.inr hcmp) hlo2
        exact ⟨hrec.1, by omega, hrec.2.2.1, hrec.2.2.2.1, hrec.2.2.2.2⟩
      · rw [if_neg hcmp]
        have hle : Key.le (keyAt ks (i + ((j - i) / 4) * 2)) key = true := by
          unfold Key.le
          rw [Bool.not_eq_true'] at *
          simpa using hcmp
        have hrec := ih (j - (i + ((j - i) / 4) * 2)).toNat (by omega)
          (i + ((j - i) / 4) * 2) j rfl (by omega) hk2 hjend (by omega) hj2
          (Or.inr hle) hQj hlo2
        exact ⟨by omega, hrec.2.1, hrec.2.2.1, hrec.2.2.2.1, hrec.2.2.2.2⟩
    · rw [if_neg hgap]
      have hj : j = i + 2 := by omega
      refine ⟨le_refl i, by omega, hi2, hPi, ?_⟩
      rw [← hj]
      exact hQj

/-- Result of `find_in_block`: the last slot whose key is `≤ key`
(`lo` when even the first compared slot is greater).  Valid for any hint
that is `-1` or an odd (slot-aligned) offset, as produced by previous
searches. -/
theorem find_in_block_spec (ks : List Key) (key : Key) (leaf : Bool) (c : Int)
    (hc : c = -1 ∨ c % 2 = 1) (hne : leaf = true ∨ ks ≠ []) :
    ((if leaf then (9 : Int) else 11) ≤ find_in_block ks key leaf c ∧
     find_in_block ks key leaf c + 2 ≤ dirEndOf ks ∧
     find_in_block ks key leaf c % 2 = 1 ∧
     (find_in_block ks key leaf c = (if leaf then (9 : Int) else 11) ∨
       Key.le (keyAt ks (find_in_block ks key leaf c)) key = true) ∧
     (find_in_block ks key leaf c + 2 = dirEndOf ks ∨
       Key.lt key (keyAt ks (find_in_block ks key leaf c + 2)) = true)) := by
  have hlo2 : (if leaf then (9 : Int) else 11) % 2 = 1 := by
    cases leaf <;> simp
  have hloend : (if leaf then (9 : Int) else 11) < dirEndOf ks := by
    unfold dirEndOf
    rcases hne with h | h
    · simp [h]; omega
    · have : 0 < ks.length := List.length_pos.mpr h
      cases leaf <;> simp <;> omega
  unfold find_in_block
  simp only []
  have hi0 : (if leaf then (11 - 2 : Int) else 11) = (if leaf then (9 : Int) else 11) := by
    cases leaf <;> simp
  rw [hi0]
  by_cases hcm : c ≠ -1
  · rw [if_pos hcm]
    have hcodd : c % 2 = 1 := by
      rcases hc with h | h
      · exact absurd h hcm
      · exact h
    by_cases hI : c < dirEndOf ks ∧ (if leaf then (9 : Int) else 11) < c ∧
        Key.le (keyAt ks c) key = true
    · rw [if_pos hI]
      by_cases hJ : c + 2 < dirEndOf ks ∧ c < c + 2 ∧ Key.lt key (keyAt ks (c + 2)) = true
      · rw [if_pos hJ]
        have h := fib_loop_spec ks key _ _ c (c + 2) rfl (le_of_lt hI.2.1) (by omega)
          (le_of_lt hJ.1) hcodd (by omega) (Or.inr hI.2.2) (Or.inr hJ.2.2) hlo2
        have hle := hI.2.1
        have hend := hJ.1
        exact ⟨by omega, by omega, h.2.2.1, h.2.2.2.1, h.2.2.2.2⟩
      · rw [if_neg hJ]
        have h := fib_loop_spec ks key _ _ c (dirEndOf ks) rfl (le_of_lt hI.2.1) hI.1
          (le_refl _) hcodd (by unfold dirEndOf; omega) (Or.inr hI.2.2) (Or.inl rfl) hlo2
        have hle := hI.2.1
        exact ⟨by omega, h.2.1, h.2.2.1, h.2.2.2.1, h.2.2.2.2⟩
    · rw [if_neg hI]
      by_cases hJ : c + 2 < dirEndOf ks ∧ (if leaf then (9 : Int) else 11) < c + 2 ∧
          Key.lt key (keyAt ks (c + 2)) = true
      · rw [if_pos hJ]
        have h := fib_loop_spec ks key _ _ _ (c + 2) rfl (le_refl _) hJ.2.1
          (le_of_lt hJ.1) hlo2 (by omega) (Or.inl rfl) (Or.inr hJ.2.2) hlo2
        have hend := hJ.1
        exact ⟨h.1, by omega, h.2.2.1, h.2.2.2.1, h.2.2.2.2⟩
      · rw [if_neg hJ]
        exact fib_loop_spec ks key _ _ _ (dirEndOf ks) rfl (le_refl _) hloend
          (le_refl _) hlo2 (by unfold dirEndOf; omega) (Or.inl rfl) (Or.inl rfl) hlo2
  · rw [if_neg hcm]
    exact fib_loop_spec ks key _ _ _ (dirEndOf ks) rfl (le_refl _) hloend
      (le_refl _) hlo2 (by unfold dirEndOf; omega) (Or.inl rfl) (Or.inl rfl) hlo2

/-- Executable strict-ordering check for a directory. -/
def sortedB : List Key → Bool
  | [] => true
  | [_] => true
  | a :: b :: rest => Key.lt a b && sortedB (b :: rest)

theorem sortedB_pairwise : ∀ {ks : List Key}, sortedB ks = true → ks.Pairwise KeyLT := by
  intro ks
  induction ks with
  | nil => intro _; exact List.Pairwise.nil
  | cons a rest ih =>
    intro h
    cases rest with
    | nil => exact List.pairwise_singleton _ _
    | cons b rest2 =>
      rw [sortedB, Bool.and_eq_true] at h
      have hpair := ih h.2
      have hab : KeyLT a b := (Key.lt_iff a b).mp h.1
      refine List.Pairwise.cons ?_ hpair
      intro x hx
      rcases List.mem_cons.mp hx with hx | hx
      · exact hx ▸ hab
      · have hbx : KeyLT b x := (List.pairwise_cons.mp hpair).1 x hx
        exact keyLT_trans hab hbx

/-- Number of directory entries whose key is `≤ key`. -/
def countLE (ks : List Key) (key : Key) : Nat := ks.countP (fun x => Key.le x key)

theorem countLE_append (a b : List Key) (key : Key) :
    countLE (a ++ b) key = countLE a key + countLE b key := by
  unfold countLE
  exact List.countP_append _ _ _

theorem countLE_all (a : List Key) (key : Key) (h : ∀ x ∈ a, Key.le x key = true) :
    countLE a key = a.length := by
  unfold countLE
  rw [List.countP_eq_length]
  exact h

theorem countLE_none (a : List Key) (key : Key) (h : ∀ x ∈ a, Key.lt key x = true) :
    countLE a key = 0 := by
  unfold countLE
  rw [List.countP_eq_zero]
  intro x hx
  intro hle
  have h1 := (Key.le_iff x key).mp hle
  exact h1 ((Key.lt_iff key x).mp (h x hx))

theorem keyAt_ofs (ks : List Key) (i : Nat) :
    keyAt ks (11 + 2 * (i : Int)) = ks.getD i nullKey := by
  unfold keyAt
  congr 1
  omega

/-- On a strictly ordered leaf directory, `find_in_block` returns the slot
just past the keys that are `≤ key` (`DIR_START - D2` when there are
none), and the slot's key matches exactly when some directory key has the
searched bytes. -/
theorem find_in_block_leaf_spec (ks : List Key) (key : Key) (c : Int)
    (hc : c = -1 ∨ c % 2 = 1) (hs : ks.Pairwise KeyLT) :
    find_in_block ks key true c = 9 + 2 * (countLE ks key : Int) ∧
    (if find_in_block ks key true c < 11 then false
     else Key.eq (keyAt ks (find_in_block ks key true c)) key) =
      ks.any (fun x => Key.eq x key) := by
  obtain ⟨h1, h2, h3, hP, hQ⟩ := find_in_block_spec ks key true c hc (Or.inl rfl)
  rw [show (if (true : Bool) = true then (9 : Int) else 11) = 9 from rfl] at h1 hP
  set r := find_in_block ks key true c with hrdef
  have hm0 : ∃ m : Nat, r = 9 + 2 * (m : Int) := ⟨(r - 9).toNat / 2, by omega⟩
  obtain ⟨m, hm⟩ := hm0
  have hmlen : m ≤ ks.length := by
    unfold dirEndOf at h2
    omega
  have hgetm : ∀ (i : Nat) (hi : i < ks.length), keyAt ks (11 + 2 * (i : Int)) = ks[i] := by
    intro i hi
    rw [keyAt_ofs]
    exact List.getD_eq_getElem ks nullKey hi
  have hpg := List.pairwise_iff_getElem.mp hs
  -- every key strictly before the result slot is ≤ the searched key
  have hA : ∀ (i : Nat), i < m → (hi : i < ks.length) → Key.le ks[i] key = true := by
    intro i him hi
    have hmpos : 1 ≤ m := by omega
    have hrP : Key.le (keyAt ks r) key = true := by
      rcases hP with h | h
      · omega
      · exact h
    have hidx : keyAt ks r = ks[m - 1] := by
      rw [show r = 11 + 2 * ((m - 1 : Nat) : Int) by omega]
      exact hgetm (m - 1) (by omega)
    rw [hidx] at hrP
    by_cases hieq : i = m - 1
    · subst hieq; exact hrP
    · have hlt : KeyLT ks[i] (ks[m - 1]) := hpg i (m - 1) hi (by omega) (by omega)
      rw [Key.le_iff]
      intro hk
      exact (Key.le_iff _ _).mp hrP (keyLT_trans hk hlt)
  -- every key at or after the slot past the result is > the searched key
  have hB : ∀ (i : Nat), m ≤ i → (hi : i < ks.length) → KeyLT key ks[i] := by
    intro i him hi
    rcases hQ with h | h
    · unfold dirEndOf at h
      omega
    · have hmlt : m < ks.length := by
        unfold dirEndOf at h2
        by_contra hcon
        have : m = ks.length := by omega
        subst this
        -- then r + 2 = dirEndOf ks, contradicting the strict case
        have : Key.lt key (keyAt ks (r + 2)) = true := h
        omega
      have hidx : keyAt ks (r + 2) = ks[m] := by
        rw [show r + 2 = 11 + 2 * (m : Int) by omega]
        exact hgetm m hmlt
      rw [hidx] at h
      have hkm : KeyLT key ks[m] := (Key.lt_iff _ _).mp h
      by_cases hieq : i = m
      · subst hieq; exact hkm
      · exact keyLT_trans hkm (hpg m i hmlt hi (by omega))
  have htake : ∀ x ∈ ks.take m, Key.le x key = true := by
    intro x hx
    rw [List.mem_iff_getElem] at hx
    obtain ⟨n, hn, hxe⟩ := hx
    have hnm : n < m := by
      have h' : n < (ks.take m).length := hn
      rw [List.length_take_of_le hmlen] at h'
      exact h'
    rw [List.getElem_take] at hxe
    rw [← hxe]
    exact hA n hnm _
  have hdrop : ∀ x ∈ ks.drop m, Key.lt key x = true := by
    intro x hx
    rw [List.mem_iff_getElem] at hx
    obtain ⟨n, hn, hxe⟩ := hx
    have hlen2 : m + n < ks.length := by
      have h' : n < (ks.drop m).length := hn
      rw [List.length_drop] at h'
      omega
    rw [List.getElem_drop] at hxe
    rw [← hxe]
    exact (Key.lt_iff _ _).mpr (hB (m + n) (by omega) hlen2)
  have hcount : countLE ks key = m := by
    conv_lhs => rw [← List.take_append_drop m ks]
    rw [countLE_append, countLE_all _ key htake, countLE_none _ key hdrop,
      List.length_take_of_le hmlen]
    omega
  refine ⟨by omega, ?_⟩
  by_cases hm0 : m = 0
  · subst hm0
    rw [if_pos (by omega)]
    symm
    rw [List.any_eq_false]
    intro x hx
    rw [List.mem_iff_getElem] at hx
    obtain ⟨n, hn, hxe⟩ := hx
    intro hEq
    have hEqv : KeyEqv x key := (Key.eq_iff _ _).mp hEq
    have hkn := hB n (by omega) hn
    rw [hxe] at hkn
    exact keyEqv_not_lt (keyEqv_symm hEqv) hkn
  · rw [if_neg (by omega)]
    have hmlt : m - 1 < ks.length := by omega
    have hidx : keyAt ks r = ks[m - 1] := by
      rw [show r = 11 + 2 * ((m - 1 : Nat) : Int) by omega]
      exact hgetm (m - 1) hmlt
    rw [hidx]
    cases heq : Key.eq (ks[m - 1]) key with
    | true =>
      symm
      rw [List.any_eq_true]
      exact ⟨ks[m - 1], List.getElem_mem _, heq⟩
    | false =>
      symm
      rw [List.any_eq_false]
      intro x hx
      rw [List.mem_iff_getElem] at hx
      obtain ⟨n, hn, hxe⟩ := hx
      intro hEq
      have hEqv : KeyEqv x key := (Key.eq_iff _ _).mp hEq
      by_cases hnm : n < m
      · by_cases hne : n = m - 1
        · subst hne
          rw [hxe] at heq
          rw [heq] at hEq
          exact Bool.false_ne_true hEq
        · have hlt : KeyLT x (ks[m - 1]) := by
            rw [← hxe]
            exact hpg n (m - 1) hn hmlt (by omega)
          have hA1 := hA (m - 1) (by omega) hmlt
          have hkm1 : KeyLT key (ks[m - 1]) :=
            ((keyEqv_lt_congr_left hEqv).mp hlt)
          exact (Key.le_iff _ _).mp hA1 hkm1
      · have hkn := hB n (by omega) hn
        rw [hxe] at hkn
        exact keyEqv_not_lt (keyEqv_symm hEqv) hkn

/-! ### The B-tree and `find`

`find(C_)` (flint_table.cc) descends from the root: at each internal level
it chops the block's directory (`find_in_block` with `leaf = false`; the
leftmost slot holds the never-compared null key) and follows the chosen
slot's child pointer; at the leaf level it chops with `leaf = true` and
reports whether the key at the final slot equals the search key.

The on-disk tree is modelled structurally: a leaf block is its directory
of keys; an internal block is a non-empty sequence of (key, child) pairs
whose first key is the null-key sentinel.  The per-level hints `C_[j].c`
are passed as a list, one entry per level from the root down.
-/

mutual
inductive BTree where
  | leaf : List Key → BTree
  | branch : BForest → BTree
inductive BForest where
  | last : Key → BTree → BForest
  | cons : Key → BTree → BForest → BForest
end

/-- The key stored in the first slot of an internal block's directory. -/
def BForest.headKey : BForest → Key
  | .last k _ => k
  | .cons k _ _ => k

/-- The directory keys of an internal block, in slot order. -/
def BForest.dirKeys : BForest → List Key
  | .last k _ => [k]
  | .cons k _ f => k :: f.dirKeys

/-- Number of directory entries of an internal block. -/
def BForest.size : BForest → Nat
  | .last _ _ => 1
  | .cons _ _ f => f.size + 1

mutual
/-- All keys stored at the leaf level of a subtree, in slot order. -/
def BTree.leafKeys : BTree → List Key
  | .leaf ks => ks
  | .branch f => BForest.leafKeys f
def BForest.leafKeys : BForest → List Key
  | .last _ t => BTree.leafKeys t
  | .cons _ t f => BTree.leafKeys t ++ BForest.leafKeys f
end

mutual
/-- `find(C_)`: returns the index (into the subtree's leaf-key sequence,
`-1` when before all of them) of the slot the cursor ends on, and the
boolean result of `find`. -/
def BTree.findr : BTree → Key → List Int → Int × Bool
  | .leaf ks, key, hints =>
    let c := find_in_block ks key true (hints.headD (-1))
    ((c - 11) / 2, if c < 11 then false else Key.eq (keyAt ks c) key)
  | .branch f, key, hints =>
    let c := find_in_block f.dirKeys key false (hints.headD (-1))
    BForest.findAt f ((c - 11) / 2).toNat key hints.tail
/-- Descend into the `idx`-th child of an internal block, accumulating the
number of leaf keys that precede it. -/
def BForest.findAt : BForest → Nat → Key → List Int → Int × Bool
  | .last _ t, _, key, hints => BTree.findr t key hints
  | .cons _ t _, 0, key, hints => BTree.findr t key hints
  | .cons _ t f, n + 1, key, hints =>
    let r := BForest.findAt f n key hints
    (r.1 + (BTree.leafKeys t).length, r.2)
end

mutual
/-- Well-formedness: leaf directories are strictly ordered; in an internal
block every child is well-formed and non-empty, every key of a child is
smaller than the next separator, and every separator bounds all keys from
its own child onward from below.  The first (null-key) slot is
unconstrained: `find_in_block` never compares it. -/
def BTree.wf : BTree → Bool
  | .leaf ks => sortedB ks
  | .branch f => BForest.wf f
def BForest.wf : BForest → Bool
  | .last _ t => BTree.wf t && !(BTree.leafKeys t).isEmpty
  | .cons _ t f =>
    BTree.wf t && !(BTree.leafKeys t).isEmpty &&
    (BTree.leafKeys t).all (fun x => Key.lt x f.headKey) &&
    (BForest.leafKeys f).all (fun x => Key.le f.headKey x) &&
    BForest.wf f
end

/-- Leaf keys of the children strictly before directory position `s`. -/
def BForest.keysBefore : BForest → Nat → List Key
  | _, 0 => []
  | .last _ t, _ + 1 => BTree.leafKeys t
  | .cons _ t f, n + 1 => BTree.leafKeys t ++ BForest.keysBefore f n

/-- Leaf keys of the children from directory position `s` onward. -/
def BForest.keysFrom : BForest → Nat → List Key
  | f, 0 => BForest.leafKeys f
  | .last _ _, _ + 1 => []
  | .cons _ _ f, n + 1 => BForest.keysFrom f n

/-- Valid per-level hints: `-1` or an odd (slot-aligned) offset. -/
def hintsOk (hints : List Int) : Bool :=
  hints.all (fun h => h == -1 || h % 2 == 1)

theorem hintsOk_head {hints : List Int} (h : hintsOk hints = true) :
    hints.headD (-1) = -1 ∨ hints.headD (-1) % 2 = 1 := by
  cases hints with
  | nil => exact Or.inl rfl
  | cons a rest =>
    unfold hintsOk at h
    rw [List.all_cons, Bool.and_eq_true] at h
    rcases Bool.or_eq_true_iff.mp h.1 with h1 | h1
    · exact Or.inl (by simpa using h1)
    · exact Or.inr (by simpa using h1)

theorem hintsOk_tail {hints : List Int} (h : hintsOk hints = true) :
    hintsOk hints.tail = true := by
  cases hints with
  | nil => exact h
  | cons a rest =>
    unfold hintsOk at h ⊢
    rw [List.all_cons, Bool.and_eq_true] at h
    exact h.2

theorem BForest.dirKeys_length : ∀ (f : BForest), f.dirKeys.length = f.size
  | .last _ _ => rfl
  | .cons k t f => by
    simp [BForest.dirKeys, BForest.size, BForest.dirKeys_length f]

theorem BForest.dirKeys_ne_nil (f : BForest) : f.dirKeys ≠ [] := by
  cases f <;> simp [BForest.dirKeys]

theorem BForest.keysBefore_from : ∀ (f : BForest) (n : Nat),
    f.keysBefore n ++ f.keysFrom n = f.leafKeys
  | .last k t, n => by
    cases n <;> simp [BForest.keysBefore, BForest.keysFrom, BForest.leafKeys]
  | .cons k t f, 0 => by simp [BForest.keysBefore, BForest.keysFrom]
  | .cons k t f, m + 1 => by
    simp only [BForest.keysBefore, BForest.keysFrom, BForest.leafKeys, List.append_assoc]
    rw [BForest.keysBefore_from f m]

theorem BForest.keysFrom_past : ∀ (f : BForest) (n : Nat),
    f.size ≤ n → f.keysFrom n = []
  | .last _ _, 0 => by intro hn; simp [BForest.size] at hn
  | .last _ _, _ + 1 => by intro _; rfl
  | .cons k t f, 0 => by intro hn; simp [BForest.size] at hn
  | .cons k t f, m + 1 => by
    intro hn
    rw [BForest.keysFrom]
    exact BForest.keysFrom_past f m (by simpa [BForest.size] using hn)

theorem keyLT_of_lt_of_le {x a key : Key} (h1 : KeyLT x a) (h2 : Key.le a key = true) :
    KeyLT x key := by
  have h2' := (Key.le_iff a key).mp h2
  rcases keyLT_trichotomy x key with h | h | h
  · exact h
  · exact absurd ((keyEqv_lt_congr_left h).mp h1) h2'
  · exact absurd (keyLT_trans h h1) h2'

theorem keyLT_of_le_of_lt {key s x : Key} (h1 : KeyLT key s) (h2 : Key.le s x = true) :
    KeyLT key x := by
  have h2' := (Key.le_iff s x).mp h2
  rcases keyLT_trichotomy key x with h | h | h
  · exact h
  · exact absurd ((keyEqv_lt_congr_left h).mp h1) h2'
  · exact absurd (keyLT_trans h h1) h2'

/-- `any (eq · key)` fails on a list of keys strictly above `key`. -/
theorem anyEq_false_of_gt {l : List Key} {key : Key}
    (h : ∀ x ∈ l, KeyLT key x) : l.any (fun x => Key.eq x key) = false := by
  rw [List.any_eq_false]
  intro x hx hEq
  exact keyEqv_not_lt (keyEqv_symm ((Key.eq_iff _ _).mp hEq)) (h x hx)

/-- `any (eq · key)` fails on a list of keys strictly below `key`. -/
theorem anyEq_false_of_lt {l : List Key} {key : Key}
    (h : ∀ x ∈ l, KeyLT x key) : l.any (fun x => Key.eq x key) = false := by
  rw [List.any_eq_false]
  intro x hx hEq
  exact keyEqv_not_lt ((Key.eq_iff _ _).mp hEq) (h x hx)

theorem keyLT_of_leB_of_lt {a b c : Key} (h1 : Key.le a b = true) (h2 : KeyLT b c) :
    KeyLT a c := by
  rcases keyLT_or_eqv_of_le h1 with h | h
  · exact keyLT_trans h h2
  · exact (keyEqv_lt_congr_left h).mpr h2

/-- The directory keys after the first slot. -/
def BForest.dirTail : BForest → List Key
  | .last _ _ => []
  | .cons _ _ f => f.dirKeys

theorem BForest.dirKeys_eq (f : BForest) : f.dirKeys = f.headKey :: f.dirTail := by
  cases f <;> rfl

theorem BForest.wf_last_parts {k : Key} {t : BTree}
    (h : (BForest.last k t).wf = true) :
    BTree.wf t = true ∧ BTree.leafKeys t ≠ [] := by
  rw [BForest.wf, Bool.and_eq_true, Bool.not_eq_true', List.isEmpty_eq_false] at h
  exact h

theorem BForest.wf_cons_parts {k : Key} {t : BTree} {f' : BForest}
    (h : (BForest.cons k t f').wf = true) :
    BTree.wf t = true ∧ BTree.leafKeys t ≠ [] ∧
    (∀ x ∈ BTree.leafKeys t, Key.lt x f'.headKey = true) ∧
    (∀ x ∈ BForest.leafKeys f', Key.le f'.headKey x = true) ∧
    BForest.wf f' = true := by
  rw [BForest.wf] at h
  simp only [Bool.and_eq_true, Bool.not_eq_true', List.isEmpty_eq_false,
    List.all_eq_true] at h
  exact ⟨h.1.1.1.1, h.1.1.1.2, h.1.1.2, h.1.2, h.2⟩

/-- Under well-formedness, the directory keys of an internal block whose
first key bounds all its leaf keys from below form a strictly increasing
sequence. -/
theorem BForest.sepsChain : ∀ (f : BForest), f.wf = true →
    (∀ x ∈ f.leafKeys, Key.le f.headKey x = true) →
    f.dirKeys.Pairwise KeyLT
  | .last k t => by
    intro _ _
    simp [BForest.dirKeys]
  | .cons k t f' => by
    intro hwf hlb
    obtain ⟨_, hne, hub, hlb', hwf'⟩ := BForest.wf_cons_parts hwf
    have hIH := BForest.sepsChain f' hwf' hlb'
    -- the head separator is strictly below the next one
    obtain ⟨y, hy⟩ := List.exists_mem_of_ne_nil _ hne
    have hky : Key.le (BForest.cons k t f').headKey y = true := by
      apply hlb
      show y ∈ BForest.leafKeys (BForest.cons k t f')
      rw [BForest.leafKeys]
      exact List.mem_append_left _ hy
    have hkh : KeyLT k f'.headKey :=
      keyLT_of_leB_of_lt hky ((Key.lt_iff _ _).mp (hub y hy))
    rw [BForest.dirKeys]
    refine List.pairwise_cons.mpr ⟨?_, hIH⟩
    intro s hs
    rw [BForest.dirKeys_eq] at hs
    rcases List.mem_cons.mp hs with hs | hs
    · exact hs ▸ hkh
    · have hhs : KeyLT f'.headKey s := by
        rw [BForest.dirKeys_eq] at hIH
        exact (List.pairwise_cons.mp hIH).1 s hs
      exact keyLT_trans hkh hhs

/-- Under the same hypotheses, the first directory key is strictly below
every later separator. -/
theorem BForest.headKey_lt_sep (f : BForest) (m : Nat) (hwf : f.wf = true)
    (hlb : ∀ x ∈ f.leafKeys, Key.le f.headKey x = true)
    (hm : 1 ≤ m) (hmlt : m < f.size) :
    KeyLT f.headKey (f.dirKeys.getD m nullKey) := by
  have hchain := BForest.sepsChain f hwf hlb
  have hlen : f.dirKeys.length = f.size := BForest.dirKeys_length f
  have hpg := List.pairwise_iff_getElem.mp hchain
  have h0 : f.dirKeys[0] = f.headKey := by
    cases f <;> rfl
  have hgd : f.dirKeys.getD m nullKey = f.dirKeys[m] :=
    List.getD_eq_getElem f.dirKeys nullKey (by omega)
  rw [hgd, ← h0]
  exact hpg 0 m (by omega) (by omega) (by omega)

/-- Every leaf key of a child strictly before directory position `s` is
below the separator stored at position `s`. -/
theorem BForest.keysBefore_lt_sep : ∀ (f : BForest) (s : Nat), f.wf = true →
    1 ≤ s → s < f.size →
    ∀ x ∈ f.keysBefore s, KeyLT x (f.dirKeys.getD s nullKey)
  | .last _ _, s => by
    intro _ h1 h2
    rw [BForest.size] at h2
    omega
  | .cons k t f', 0 => by
    intro _ h1 _
    omega
  | .cons k t f', m + 1 => by
    intro hwf _ hsz
    obtain ⟨_, _, hub, hlb', hwf'⟩ := BForest.wf_cons_parts hwf
    rw [BForest.size] at hsz
    have hgd : (BForest.cons k t f').dirKeys.getD (m + 1) nullKey
        = f'.dirKeys.getD m nullKey := by
      rw [BForest.dirKeys]
      rfl
    rw [hgd]
    intro x hx
    rw [BForest.keysBefore] at hx
    rcases List.mem_append.mp hx with hx | hx
    · -- a key of the head child
      have hxh : KeyLT x f'.headKey := (Key.lt_iff _ _).mp (hub x hx)
      by_cases hm0 : m = 0
      · subst hm0
        have : f'.dirKeys.getD 0 nullKey = f'.headKey := by
          rw [BForest.dirKeys_eq]
          rfl
        rw [this]
        exact hxh
      · exact keyLT_trans hxh
          (BForest.headKey_lt_sep f' m hwf' hlb' (by omega) (by omega))
    · exact BForest.keysBefore_lt_sep f' m hwf' (by
        by_contra hc
        have : m = 0 := by omega
        subst this
        simp [BForest.keysBefore] at hx) (by omega) x hx

/-- Every leaf key of a child at or after directory position `s` is
bounded below by the separator stored at position `s`. -/
theorem BForest.sep_le_keysFrom : ∀ (f : BForest) (s : Nat), f.wf = true →
    1 ≤ s → s < f.size →
    ∀ x ∈ f.keysFrom s, Key.le (f.dirKeys.getD s nullKey) x = true
  | .last _ _, s => by
    intro _ h1 h2
    rw [BForest.size] at h2
    omega
  | .cons k t f', 0 => by
    intro _ h1 _
    omega
  | .cons k t f', m + 1 => by
    intro hwf _ hsz
    obtain ⟨_, _, _, hlb', hwf'⟩ := BForest.wf_cons_parts hwf
    rw [BForest.size] at hsz
    have hgd : (BForest.cons k t f').dirKeys.getD (m + 1) nullKey
        = f'.dirKeys.getD m nullKey := by
      rw [BForest.dirKeys]
      rfl
    rw [hgd]
    intro x hx
    rw [BForest.keysFrom] at hx
    by_cases hm0 : m = 0
    · subst hm0
      have : f'.dirKeys.getD 0 nullKey = f'.headKey := by
        rw [BForest.dirKeys_eq]
        rfl
      rw [this]
      rw [BForest.keysFrom] at hx
      exact hlb' x hx
    · exact BForest.sep_le_keysFrom f' m hwf' (by omega) (by omega) x hx

mutual
/-- `find(C_)` on a well-formed subtree: the cursor ends on the position of
the greatest leaf key `≤ key` (`-1` when all leaf keys are greater), and
the returned boolean says whether the key at that slot has exactly the
searched bytes. -/
theorem BTree.findr_spec : ∀ (t : BTree) (key : Key) (hints : List Int),
    t.wf = true → hintsOk hints = true →
    t.findr key hints =
      ((countLE (BTree.leafKeys t) key : Int) - 1,
       (BTree.leafKeys t).any (fun x => Key.eq x key))
  | .leaf ks, key, hints => by
    intro hwf hh
    rw [BTree.wf] at hwf
    have hs : ks.Pairwise KeyLT := sortedB_pairwise hwf
    obtain ⟨h1, h2⟩ := find_in_block_leaf_spec ks key (hints.headD (-1))
      (hintsOk_head hh) hs
    show (let c := find_in_block ks key true (hints.headD (-1))
      ((c - 11) / 2, if c < 11 then false else Key.eq (keyAt ks c) key)) =
      ((countLE ks key : Int) - 1, ks.any (fun x => Key.eq x key))
    simp only []
    rw [Prod.mk.injEq]
    constructor
    · rw [h1]
      omega
    · exact h2
  | .branch f, key, hints => by
    intro hwf hh
    rw [BTree.wf] at hwf
    obtain ⟨h1, h2, h3, hP, hQ⟩ := find_in_block_spec f.dirKeys key false
      (hints.headD (-1)) (hintsOk_head hh) (Or.inr (BForest.dirKeys_ne_nil f))
    rw [show (if (false : Bool) = true then (9 : Int) else 11) = 11 from rfl] at h1 hP
    have hlen := BForest.dirKeys_length f
    show (let c := find_in_block f.dirKeys key false (hints.headD (-1))
      BForest.findAt f ((c - 11) / 2).toNat key hints.tail) =
      ((countLE (BTree.leafKeys (BTree.branch f)) key : Int) - 1,
       (BTree.leafKeys (BTree.branch f)).any (fun x => Key.eq x key))
    simp only []
    set c := find_in_block f.dirKeys key false (hints.headD (-1)) with hcdef
    obtain ⟨idx0, hidx0⟩ : ∃ n : Nat, c = 11 + 2 * (n : Int) :=
      ⟨(c - 11).toNat / 2, by omega⟩
    have hidxeq : ((c - 11) / 2).toNat = idx0 := by omega
    have hidxlt : idx0 < f.size := by
      unfold dirEndOf at h2
      omega
    have hfull : ∀ x ∈ f.keysBefore idx0, KeyLT x key := by
      intro x hx
      by_cases h0 : idx0 = 0
      · subst h0
        rw [BForest.keysBefore] at hx
        simp at hx
      · have hPr : Key.le (keyAt f.dirKeys c) key = true := by
          rcases hP with h | h
          · omega
          · exact h
        have hkd : keyAt f.dirKeys c = f.dirKeys.getD idx0 nullKey := by
          rw [show c = 11 + 2 * ((idx0 : Nat) : Int) from hidx0, keyAt_ofs]
        have hsep := BForest.keysBefore_lt_sep f idx0 hwf (by omega) hidxlt x hx
        exact keyLT_of_lt_of_le hsep (hkd ▸ hPr)
    have hafter : ∀ x ∈ f.keysFrom (idx0 + 1), KeyLT key x := by
      intro x hx
      rcases hQ with h | h
      · rw [BForest.keysFrom_past f (idx0 + 1) (by
          unfold dirEndOf at h
          omega)] at hx
        simp at hx
      · have hkd : keyAt f.dirKeys (c + 2) = f.dirKeys.getD (idx0 + 1) nullKey := by
          rw [show c + 2 = 11 + 2 * (((idx0 + 1 : Nat)) : Int) by omega, keyAt_ofs]
        have hlt : KeyLT key (f.dirKeys.getD (idx0 + 1) nullKey) :=
          (Key.lt_iff _ _).mp (hkd ▸ h)
        rcases Nat.lt_or_ge (idx0 + 1) f.size with hs | hs
        · exact keyLT_of_le_of_lt hlt
            (BForest.sep_le_keysFrom f (idx0 + 1) hwf (by omega) hs x hx)
        · rw [BForest.keysFrom_past f _ hs] at hx
          simp at hx
    rw [hidxeq]
    rw [BForest.findAt_spec f idx0 key hints.tail hwf (hintsOk_tail hh)
      hidxlt hfull hafter]
    rfl
theorem BForest.findAt_spec : ∀ (f : BForest) (idx : Nat) (key : Key)
    (hints : List Int),
    f.wf = true → hintsOk hints = true → idx < f.size →
    (∀ x ∈ f.keysBefore idx, KeyLT x key) →
    (∀ x ∈ f.keysFrom (idx + 1), KeyLT key x) →
    f.findAt idx key hints =
      ((countLE (BForest.leafKeys f) key : Int) - 1,
       (BForest.leafKeys f).any (fun x => Key.eq x key))
  | .last k t, idx, key, hints => by
    intro hwf hh _ _ _
    obtain ⟨hwt, _⟩ := BForest.wf_last_parts hwf
    rw [BForest.findAt, BForest.leafKeys]
    exact BTree.findr_spec t key hints hwt hh
  | .cons k t f', 0, key, hints => by
    intro hwf hh _ _ hafter
    obtain ⟨hwt, _, _, _, _⟩ := BForest.wf_cons_parts hwf
    rw [BForest.findAt, BForest.leafKeys]
    rw [BTree.findr_spec t key hints hwt hh]
    have hf'gt : ∀ x ∈ BForest.leafKeys f', KeyLT key x := by
      intro x hx
      apply hafter
      rw [BForest.keysFrom, BForest.keysFrom]
      exact hx
    rw [countLE_append,
      countLE_none _ _ (fun x hx => (Key.lt_iff _ _).mpr (hf'gt x hx)),
      List.any_append, anyEq_false_of_gt hf'gt]
    rw [Prod.mk.injEq]
    constructor
    · push_cast
      ring
    · simp
  | .cons k t f', m + 1, key, hints => by
    intro hwf hh hidx hfull hafter
    obtain ⟨hwt, _, hub, hlb', hwf'⟩ := BForest.wf_cons_parts hwf
    rw [BForest.findAt, BForest.leafKeys]
    have hfull' : ∀ x ∈ f'.keysBefore m, KeyLT x key := by
      intro x hx
      apply hfull
      rw [BForest.keysBefore]
      exact List.mem_append_right _ hx
    have hafter' : ∀ x ∈ f'.keysFrom (m + 1), KeyLT key x := by
      intro x hx
      apply hafter
      rw [BForest.keysFrom]
      exact hx
    have hidx' : m < f'.size := by
      rw [BForest.size] at hidx
      omega
    rw [BForest.findAt_spec f' m key hints hwf' hh hidx' hfull' hafter']
    have htlt : ∀ x ∈ BTree.leafKeys t, KeyLT x key := by
      intro x hx
      apply hfull
      rw [BForest.keysBefore]
      exact List.mem_append_left _ hx
    rw [countLE_append,
      countLE_all _ _ (fun x hx => key_le_of_lt (htlt x hx)),
      List.any_append, anyEq_false_of_lt htlt]
    rw [Prod.mk.injEq]
    constructor
    · push_cast
      ring
    · simp
end

mutual
/-- The leaf keys of a well-formed subtree are strictly increasing. -/
theorem BTree.leafKeys_sorted : ∀ (t : BTree), t.wf = true →
    (BTree.leafKeys t).Pairwise KeyLT
  | .leaf ks => by
    intro hwf
    rw [BTree.wf] at hwf
    exact sortedB_pairwise hwf
  | .branch f => by
    intro hwf
    rw [BTree.wf] at hwf
    rw [BTree.leafKeys]
    exact BForest.forestLeafKeys_sorted f hwf
theorem BForest.forestLeafKeys_sorted : ∀ (f : BForest), f.wf = true →
    (BForest.leafKeys f).Pairwise KeyLT
  | .last k t => by
    intro hwf
    obtain ⟨hwt, _⟩ := BForest.wf_last_parts hwf
    rw [BForest.leafKeys]
    exact BTree.leafKeys_sorted t hwt
  | .cons k t f' => by
    intro hwf
    obtain ⟨hwt, _, hub, hlb', hwf'⟩ := BForest.wf_cons_parts hwf
    rw [BForest.leafKeys]
    rw [List.pairwise_append]
    refine ⟨BTree.leafKeys_sorted t hwt, BForest.forestLeafKeys_sorted f' hwf', ?_⟩
    intro x hx y hy
    exact keyLT_of_lt_of_le ((Key.lt_iff _ _).mp (hub x hx)) (hlb' y hy)
end

theorem not_le_imp_gt {a key : Key} (h : ¬ Key.le a key = true) : KeyLT key a := by
  have h2 : ¬ ¬ KeyLT key a := fun hc => h ((Key.le_iff _ _).mpr hc)
  exact not_not.mp h2

/-- On a strictly increasing key sequence, the keys `≤ key` are exactly
the first `countLE` ones. -/
theorem countLE_index_iff (ks : List Key) (key : Key) (hs : ks.Pairwise KeyLT)
    (i : Nat) (hi : i < ks.length) :
    Key.le ks[i] key = true ↔ i < countLE ks key := by
  have hpg := List.pairwise_iff_getElem.mp hs
  constructor
  · intro hle
    have hsplit : countLE ks key
        = countLE (ks.take (i + 1)) key + countLE (ks.drop (i + 1)) key := by
      conv_lhs => rw [← List.take_append_drop (i + 1) ks]
      rw [countLE_append]
    have htake : ∀ x ∈ ks.take (i + 1), Key.le x key = true := by
      intro x hx
      rw [List.mem_iff_getElem] at hx
      obtain ⟨n, hn, hxe⟩ := hx
      have hni : n ≤ i := by
        have h' : n < (ks.take (i + 1)).length := hn
        rw [List.length_take_of_le (by omega)] at h'
        omega
      rw [List.getElem_take] at hxe
      rw [← hxe]
      by_cases hne : n = i
      · subst hne; exact hle
      · exact key_le_of_lt (keyLT_of_lt_of_le (hpg n i (by omega) hi (by omega)) hle)
    rw [hsplit, countLE_all _ _ htake, List.length_take_of_le (by omega)]
    omega
  · intro hlt
    by_contra hnle
    have hgt : KeyLT key ks[i] := not_le_imp_gt hnle
    have hdrop : ∀ x ∈ ks.drop i, Key.lt key x = true := by
      intro x hx
      rw [List.mem_iff_getElem] at hx
      obtain ⟨n, hn, hxe⟩ := hx
      have hlen2 : i + n < ks.length := by
        have h' : n < (ks.drop i).length := hn
        rw [List.length_drop] at h'
        omega
      rw [List.getElem_drop] at hxe
      rw [← hxe]
      rw [Key.lt_iff]
      by_cases hn0 : n = 0
      · subst hn0
        have heq0 : ks[i + 0] = ks[i] := rfl
        rw [heq0]
        exact hgt
      · exact keyLT_trans hgt (hpg i (i + n) hi hlen2 (by omega))
    have hsplit : countLE ks key
        = countLE (ks.take i) key + countLE (ks.drop i) key := by
      conv_lhs => rw [← List.take_append_drop i ks]
      rw [countLE_append]
    have hle1 : countLE (ks.take i) key ≤ i := by
      have := List.countP_le_length (fun x => Key.le x key) (l := ks.take i)
      have hlen3 : (ks.take i).length ≤ i := List.length_take_le i ks
      unfold countLE
      omega
    rw [hsplit, countLE_none _ _ hdrop] at hlt
    omega

/-! ### The null item and formed search keys -/

/-- `FlintTable::form_key` (flint_table.cc): the constructed search item
holds the caller's key bytes "and c is set to 1", so a formed search key
is the body with component counter 1. -/
def formKey (key : List Nat) : Key := ⟨key, 1⟩

/-- Modelled from the spec: the synthetic "null" item that occupies the
first leaf slot of an empty/faked root (`Item_wr_::fake_root_item` lives
in flint_table.h, which is not part of src).  The spec describes it as a
sentinel null key that compares less than any real key, so it is modelled
as the empty body with counter 0. -/
def fakeRootKey : Key := ⟨[], 0⟩

/-- C1: for every search key, `find(C)` positions the cursor at the
greatest stored key that is less than or equal to the search key (the
leaf keys at indices up to the final position are exactly those `≤` the
search key), and returns true if and only if the key at the resulting
leaf slot equals the search key (equivalently: some stored key has the
searched bytes); a zero-length search key positions the cursor at the
first, null item and returns false. -/
theorem C1_find_greatest_le (t : BTree) (key : Key) (hints : List Int)
    (hwf : BTree.wf t = true) (hh : hintsOk hints = true) :
    ((BTree.findr t key hints).1 = (countLE (BTree.leafKeys t) key : Int) - 1) ∧
    (∀ (i : Nat) (hi : i < (BTree.leafKeys t).length),
      Key.le ((BTree.leafKeys t)[i]) key = true ↔
        (i : Int) ≤ (BTree.findr t key hints).1) ∧
    ((BTree.findr t key hints).2 = true ↔ ∃ x ∈ BTree.leafKeys t, KeyEqv x key) ∧
    (key = formKey [] →
      BTree.leafKeys t = fakeRootKey :: (BTree.leafKeys t).tail →
      (∀ x ∈ (BTree.leafKeys t).tail, x.body ≠ []) →
      BTree.findr t key hints = (0, false)) := by
  have hspec := BTree.findr_spec t key hints hwf hh
  have hsorted := BTree.leafKeys_sorted t hwf
  refine ⟨by rw [hspec], ?_, ?_, ?_⟩
  · intro i hi
    rw [hspec]
    rw [countLE_index_iff _ _ hsorted i hi]
    omega
  · rw [hspec]
    show (BTree.leafKeys t).any (fun x => Key.eq x key) = true ↔ _
    rw [List.any_eq_true]
    constructor
    · rintro ⟨x, hx, he⟩
      exact ⟨x, hx, (Key.eq_iff _ _).mp he⟩
    · rintro ⟨x, hx, he⟩
      exact ⟨x, hx, (Key.eq_iff _ _).mpr he⟩
  · intro hkey hhead htail
    subst hkey
    have htailgt : ∀ x ∈ (BTree.leafKeys t).tail, KeyLT (formKey []) x := by
      intro x hx
      left
      rw [list_lt_iff_lex]
      show List.Lex _ ([] : List Nat) x.body
      cases hxb : x.body with
      | nil => exact absurd hxb (htail x hx)
      | cons y ys => exact List.Lex.nil
    have hcount : countLE (BTree.leafKeys t) (formKey []) = 1 := by
      conv_lhs => rw [hhead]
      unfold countLE
      rw [List.countP_cons]
      have h0 : countLE ((BTree.leafKeys t).tail) (formKey []) = 0 :=
        countLE_none _ _ (fun x hx => (Key.lt_iff _ _).mpr (htailgt x hx))
      unfold countLE at h0
      rw [h0]
      decide
    have hanyf : (BTree.leafKeys t).any (fun x => Key.eq x (formKey [])) = false := by
      conv_lhs => rw [hhead]
      rw [List.any_cons, Bool.or_eq_false_iff]
      exact ⟨by decide, anyEq_false_of_gt htailgt⟩
    rw [hspec, hcount, hanyf]
    decide

/-- A small well-formed two-level tree used to instantiate the theorems:
a root with two leaf children separated by the key "b". -/
def c1Tree : BTree :=
  BTree.branch (BForest.cons fakeRootKey
    (BTree.leaf [fakeRootKey, ⟨[97], 1⟩])
    (BForest.last ⟨[98], 1⟩ (BTree.leaf [⟨[98], 1⟩, ⟨[99], 1⟩])))

theorem C1_find_greatest_le_witness :
    BTree.wf c1Tree = true ∧ hintsOk [11] = true ∧
    (BTree.findr c1Tree (formKey [98]) [11]).1 =
      (countLE (BTree.leafKeys c1Tree) (formKey [98]) : Int) - 1 :=
  ⟨by decide, by decide,
    (C1_find_greatest_le c1Tree (formKey [98]) [11] (by decide) (by decide)).1⟩

/-! ### `set_block_size` -/

/-- `BYTE_PAIR_RANGE = 1 << 2 * CHAR_BIT` (flint_table.cc). -/
def BYTE_PAIR_RANGE : Nat := 1 <<< (2 * 8)

/-- `FlintTable::set_block_size` (flint_table.cc).  The default block size
`FLINT_DEFAULT_BLOCK_SIZE` is declared in flint_table.h and passed here as
a parameter. -/
def set_block_size (block_size_ : Nat) (flint_default_block_size : Nat) : Nat :=
  if block_size_ < 2048 ∨ BYTE_PAIR_RANGE < block_size_ ∨
      (block_size_ &&& (block_size_ - 1)) ≠ 0 then
    flint_default_block_size
  else
    block_size_

theorem and_pred_of_pow_two (k : Nat) : 2 ^ k &&& (2 ^ k - 1) = 0 := by
  rw [Nat.and_pow_two_sub_one_eq_mod]
  exact Nat.mod_self _

theorem pow_two_of_and_pred {n : Nat} (hn : 0 < n) (h : n &&& (n - 1) = 0) :
    ∃ k, n = 2 ^ k := by
  refine ⟨n.log2, ?_⟩
  have h1 : 2 ^ n.log2 ≤ n := Nat.log2_self_le (by omega)
  have h2 : n < 2 ^ (n.log2 + 1) := Nat.lt_log2_self
  rw [Nat.pow_succ] at h2
  by_contra hne
  have hr1 : 2 ^ n.log2 + 1 ≤ n := by
    rcases Nat.lt_or_ge (2 ^ n.log2) n with hlt | hge
    · omega
    · exact absurd (by omega) hne
  have hd1 : n / 2 ^ n.log2 = 1 := Nat.div_eq_of_lt_le (by omega) (by omega)
  have hd2 : (n - 1) / 2 ^ n.log2 = 1 := Nat.div_eq_of_lt_le (by omega) (by omega)
  have hbit1 : n.testBit n.log2 = true := by
    rw [Nat.testBit_to_div_mod, hd1]
    rfl
  have hbit2 : (n - 1).testBit n.log2 = true := by
    rw [Nat.testBit_to_div_mod, hd2]
    rfl
  have hband : (n &&& (n - 1)).testBit n.log2 = true := by
    rw [Nat.testBit_and, hbit1, hbit2]
    rfl
  rw [h] at hband
  simp [Nat.zero_testBit] at hband

/-- C10: an argument of `set_block_size` that is below 2048, above 65536,
or not a power of two is silently replaced by the default block size; a
power of two in [2048, 65536] is stored unchanged. -/
theorem C10_set_block_size (n d : Nat) :
    ((n < 2048 ∨ 65536 < n ∨ ¬ ∃ k, n = 2 ^ k) → set_block_size n d = d) ∧
    (2048 ≤ n → n ≤ 65536 → (∃ k, n = 2 ^ k) → set_block_size n d = n) := by
  have hbp : BYTE_PAIR_RANGE = 65536 := by decide
  constructor
  · intro h
    unfold set_block_size
    rw [if_pos]
    rw [hbp]
    rcases h with h | h | h
    · exact Or.inl h
    · exact Or.inr (Or.inl h)
    · by_cases hz : n = 0
      · subst hz
        exact Or.inl (by omega)
      · right; right
        intro hand
        exact h (pow_two_of_and_pred (by omega) hand)
  · intro hlo hhi hpow
    unfold set_block_size
    rw [if_neg]
    rw [hbp]
    push_neg
    obtain ⟨k, hk⟩ := hpow
    refine ⟨by omega, by omega, ?_⟩
    subst hk
    exact and_pred_of_pow_two k

theorem C10_set_block_size_witness :
    1024 < 2048 ∧ set_block_size 1024 8192 = 8192 ∧
    2048 ≤ 4096 ∧ 4096 ≤ 65536 ∧ set_block_size 4096 8192 = 4096 :=
  ⟨by decide, (C10_set_block_size 1024 8192).1 (Or.inl (by decide)),
   by decide, by decide,
   (C10_set_block_size 4096 8192).2 (by decide) (by decide) ⟨12, by decide⟩⟩

/-! ### Errors and `commit` -/

/-- The error kinds surfaced by the embedded operations. -/
inductive XErr where
  | DatabaseError : String → XErr
  | DatabaseCorruptError : String → XErr
  | DatabaseModifiedError : String → XErr
  | UnimplementedError : String → XErr
deriving DecidableEq, Repr

/-- The fields of `FlintTable` read and written by `commit`
(flint_table.cc).  `c_root_n` stands for `C[level].n`, the block number
the built-in cursor holds for the root. -/
structure CommitState where
  revision_number : Nat
  latest_revision_number : Nat
  handle : Int
  both_bases : Bool
  base_letter : Char
  root : Nat
  item_count : Nat
  Btree_modified : Bool
  c_root_n : Nat
deriving DecidableEq, Repr

/-- Outcomes of the file-system operations `commit` performs, supplied by
the environment: whether `io_sync` succeeds, whether the `rename` of the
temp base file succeeds, and on rename failure whether `unlink(tmp)`
removed the file / failed with `ENOENT`. -/
structure CommitEnv where
  io_sync_ok : Bool
  rename_ok : Bool
  unlink_removed_tmp : Bool
  unlink_errno_enoent : Bool
deriving DecidableEq, Repr

/-- `FlintTable::commit` (flint_table.cc): the revision precondition, the
closed/lazy-handle cases, and the try block whose failures close the
table (the `catch` runs `close()`, modelled as `handle := -1`). -/
def commit (st : CommitState) (env : CommitEnv) (revision : Nat) :
    CommitState × Option XErr :=
  if revision ≤ st.revision_number then
    (st, some (XErr.DatabaseError "New revision too low"))
  else if st.handle < 0 then
    if st.handle = -2 then
      (st, some (XErr.DatabaseError "Database has been closed"))
    else
      ({ st with latest_revision_number := revision,
                 revision_number := revision }, none)
  else
    let st1 := { st with
      base_letter := if st.base_letter = 'A' then 'B' else 'A',
      both_bases := true,
      latest_revision_number := revision,
      revision_number := revision,
      root := st.c_root_n,
      Btree_modified := false }
    if env.io_sync_ok = false then
      ({ st1 with handle := -1 },
       some (XErr.DatabaseError "commit failed to flush DB to disk"))
    else if env.rename_ok = false ∧
        (env.unlink_removed_tmp = true ∨ env.unlink_errno_enoent = false) then
      ({ st1 with handle := -1 },
       some (XErr.DatabaseError "could not update base file"))
    else
      (st1, none)

/-- C2: committing with a revision not strictly greater than the current
one raises `DatabaseError "New revision too low"` and leaves the state —
in particular the revision number — unchanged; with a strictly greater
revision this precondition check passes. -/
theorem C2_commit_revision_check (st : CommitState) (env : CommitEnv)
    (revision : Nat) :
    (revision ≤ st.revision_number →
      commit st env revision = (st, some (XErr.DatabaseError "New revision too low")) ∧
      (commit st env revision).1.revision_number = st.revision_number) ∧
    (st.revision_number < revision →
      (commit st env revision).2 ≠ some (XErr.DatabaseError "New revision too low")) := by
  constructor
  · intro h
    unfold commit
    rw [if_pos h]
    exact ⟨rfl, rfl⟩
  · intro h
    unfold commit
    rw [if_neg (by omega)]
    by_cases h1 : st.handle < 0
    · rw [if_pos h1]
      by_cases h2 : st.handle = -2
      · rw [if_pos h2]
        simp
      · rw [if_neg h2]
        simp
    · rw [if_neg h1]
      by_cases h2 : env.io_sync_ok = false
      · simp only [if_pos h2]
        simp
      · rw [if_neg h2]
        by_cases h3 : env.rename_ok = false ∧
            (env.unlink_removed_tmp = true ∨ env.unlink_errno_enoent = false)
        · rw [if_pos h3]
          simp
        · rw [if_neg h3]
          simp

/-- A writable table state used to instantiate the theorems. -/
def c2State : CommitState :=
  { revision_number := 4, latest_revision_number := 4, handle := 3,
    both_bases := false, base_letter := 'A', root := 7, item_count := 2,
    Btree_modified := true, c_root_n := 9 }

def c2Env : CommitEnv :=
  { io_sync_ok := true, rename_ok := true, unlink_removed_tmp := false,
    unlink_errno_enoent := true }

theorem C2_commit_revision_check_witness :
    (4 ≤ c2State.revision_number ∧
      commit c2State c2Env 4 =
        (c2State, some (XErr.DatabaseError "New revision too low"))) ∧
    (c2State.revision_number < 5 ∧
      (commit c2State c2Env 5).2 ≠ some (XErr.DatabaseError "New revision too low")) :=
  ⟨⟨by decide, ((C2_commit_revision_check c2State c2Env 4).1 (by decide)).1⟩,
   ⟨by decide, (C2_commit_revision_check c2State c2Env 5).2 (by decide)⟩⟩

/-! ### The compression step of `add` -/

/-- Only try to compress tags longer than this many bytes (flint_table.cc). -/
def COMPRESS_MIN : Nat := 4

/-- The tag-compression step of `FlintTable::add` (flint_table.cc).
`deflateOr` is the zlib deflate oracle: given the input bytes and the
output budget (`avail_out`, set to `tag.size() - 1`), it returns the
deflated bytes on `Z_STREAM_END` and `none` when deflate cannot finish
within the budget.  `dont_compress` is the `DONT_COMPRESS` strategy value
(flint_table.h). -/
def addCompress (compress_strategy dont_compress : Int)
    (deflateOr : List Nat → Nat → Option (List Nat))
    (already_compressed : Bool) (tag : List Nat) : List Nat × Bool :=
  if already_compressed then
    (tag, true)
  else if compress_strategy ≠ dont_compress ∧ COMPRESS_MIN < tag.length then
    match deflateOr tag (tag.length - 1) with
    | some blk => (blk, true)
    | none => (tag, false)
  else
    (tag, false)

/-- C6: with `already_compressed = false`, compression is attempted only
when the tag is longer than `COMPRESS_MIN` (4) bytes and the strategy is
not `DONT_COMPRESS` (otherwise the result does not consult the deflate
oracle at all and stores the tag uncompressed); whenever deflate cannot
produce output strictly smaller than the input, the tag is stored
uncompressed; on success the stored bytes are strictly smaller. -/
theorem C6_compress_min_and_fallback (cs dc : Int)
    (f g : List Nat → Nat → Option (List Nat)) (tag : List Nat)
    (hf : ∀ inp budget out, f inp budget = some out → out.length ≤ budget) :
    ((tag.length ≤ COMPRESS_MIN ∨ cs = dc) →
      addCompress cs dc f false tag = (tag, false) ∧
      addCompress cs dc f false tag = addCompress cs dc g false tag) ∧
    (f tag (tag.length - 1) = none →
      addCompress cs dc f false tag = (tag, false)) ∧
    (∀ out, cs ≠ dc → COMPRESS_MIN < tag.length →
      f tag (tag.length - 1) = some out →
      addCompress cs dc f false tag = (out, true) ∧ out.length < tag.length) := by
  refine ⟨?_, ?_, ?_⟩
  · intro h
    have hcond : ¬ (cs ≠ dc ∧ COMPRESS_MIN < tag.length) := by
      rintro ⟨h1, h2⟩
      rcases h with h | h
      · omega
      · exact h1 h
    unfold addCompress
    rw [if_neg (by simp), if_neg hcond, if_neg (by simp), if_neg hcond]
    exact ⟨rfl, rfl⟩
  · intro h
    unfold addCompress
    rw [if_neg (by simp)]
    by_cases hcond : cs ≠ dc ∧ COMPRESS_MIN < tag.length
    · rw [if_pos hcond, h]
    · rw [if_neg hcond]
  · intro out h1 h2 h3
    unfold addCompress
    rw [if_neg (by simp), if_pos ⟨h1, h2⟩, h3]
    have := hf tag (tag.length - 1) out h3
    refine ⟨rfl, by unfold COMPRESS_MIN at h2; omega⟩

theorem C6_compress_min_and_fallback_witness :
    addCompress 0 (-1) (fun _ _ => none) false [1, 2, 3] = ([1, 2, 3], false) ∧
    addCompress 0 (-1) (fun _ _ => none) false [1, 2, 3, 4, 5] = ([1, 2, 3, 4, 5], false) :=
  ⟨((C6_compress_min_and_fallback 0 (-1) (fun _ _ => none) (fun _ _ => none)
      [1, 2, 3] (fun _ _ _ h => Option.noConfusion h)).1 (Or.inl (by decide))).1,
   (C6_compress_min_and_fallback 0 (-1) (fun _ _ => none) (fun _ _ => none)
      [1, 2, 3, 4, 5] (fun _ _ _ h => Option.noConfusion h)).2.1 rfl⟩

/-! ### `enter_key`: separator derivation -/

/-- The length of the common initial segment of two byte sequences, as
computed by the `while` loop of `enter_key` (flint_table.cc). -/
def commonPrefixLen : List Nat → List Nat → Nat
  | a :: as, b :: bs => if a = b then commonPrefixLen as bs + 1 else 0
  | _, _ => 0

/-- The truncation length `i` computed by `FlintTable::enter_key`
(flint_table.cc): at level 1 the common prefix plus one byte of
difference when the new key extends past the common prefix; at other
levels the full key length (no truncation between branch levels). -/
def enter_key_trunc (j : Nat) (prevkey newkey : Key) : Nat :=
  if j = 1 then
    let i := commonPrefixLen prevkey.body newkey.body
    if i < newkey.body.length then i + 1 else i
  else newkey.body.length

/-- Modelled from the spec: `Item_wr_::set_key_and_block` lives in
flint_table.h (not in src); it stores the first `truncate_size` body
bytes of the key, and the component counter is kept (the enter_key
comment in flint_table.cc: keys are truncated here, but the count at the
end is not truncated away). -/
def set_key_and_block (newkey : Key) (truncate_size : Nat) : Key :=
  ⟨newkey.body.take truncate_size, newkey.count⟩

/-- The separator key entered in the parent block by `enter_key`. -/
def enter_key_sep (j : Nat) (prevkey newkey : Key) : Key :=
  set_key_and_block newkey (enter_key_trunc j prevkey newkey)

theorem commonPrefixLen_le :
    ∀ (a b : List Nat), commonPrefixLen a b ≤ min a.length b.length
  | [], b => by cases b <;> simp [commonPrefixLen]
  | a :: as, [] => by simp [commonPrefixLen]
  | a :: as, b :: bs => by
    rw [commonPrefixLen]
    by_cases hab : a = b
    · rw [if_pos hab]
      have := commonPrefixLen_le as bs
      simp only [List.length_cons]
      omega
    · rw [if_neg hab]
      omega

theorem commonPrefixLen_take_eq :
    ∀ (a b : List Nat),
      a.take (commonPrefixLen a b) = b.take (commonPrefixLen a b)
  | [], b => by cases b <;> simp [commonPrefixLen]
  | a :: as, [] => by simp [commonPrefixLen]
  | a :: as, b :: bs => by
    rw [commonPrefixLen]
    by_cases hab : a = b
    · rw [if_pos hab]
      simp only [List.take_succ_cons]
      rw [hab, commonPrefixLen_take_eq as bs]
    · rw [if_neg hab]
      simp

theorem commonPrefixLen_ne :
    ∀ (a b : List Nat), commonPrefixLen a b < a.length →
      commonPrefixLen a b < b.length →
      a.getD (commonPrefixLen a b) 0 ≠ b.getD (commonPrefixLen a b) 0
  | [], b => by intro ha _; simp at ha
  | a :: as, [] => by intro _ hb; simp at hb
  | a :: as, b :: bs => by
    intro ha hb
    by_cases hab : a = b
    · have hcp : commonPrefixLen (a :: as) (b :: bs) = commonPrefixLen as bs + 1 := by
        rw [commonPrefixLen, if_pos hab]
      rw [hcp] at ha hb ⊢
      simp only [List.getD_cons_succ]
      exact commonPrefixLen_ne as bs (by simpa using ha) (by simpa using hb)
    · have hcp : commonPrefixLen (a :: as) (b :: bs) = 0 := by
        rw [commonPrefixLen, if_neg hab]
      rw [hcp]
      simpa [List.getD_cons_zero] using hab

theorem lex_iff_of_common :
    ∀ (cp : Nat) (a b : List Nat), cp < a.length → cp < b.length →
      a.take cp = b.take cp → a.getD cp 0 ≠ b.getD cp 0 →
      (List.Lex (· < ·) a b ↔ a.getD cp 0 < b.getD cp 0)
  | 0, a :: as, b :: bs => by
    intro ha hb _ hne
    simp only [List.getD_cons_zero] at hne ⊢
    constructor
    · intro hlex
      cases hlex with
      | cons _ => exact absurd rfl hne
      | rel hr => exact hr
    · intro h
      exact List.Lex.rel h
  | cp + 1, a :: as, b :: bs => by
    intro ha hb heq hne
    simp only [List.take_succ_cons, List.cons.injEq] at heq
    obtain ⟨hab, htail⟩ := heq
    subst hab
    simp only [List.getD_cons_succ] at hne ⊢
    rw [List.Lex.cons_iff]
    exact lex_iff_of_common cp as bs (by simpa using ha) (by simpa using hb) htail hne
  | 0, [], _ => by intro ha; simp at ha
  | 0, _ :: _, [] => by intro _ hb; simp at hb
  | _ + 1, [], _ => by intro ha; simp at ha
  | _ + 1, _ :: _, [] => by intro _ hb; simp at hb

/-- C4 counterexample: with `prev_key = ("a", counter 1)` and
`new_key = ("ab", counter 2)` (a pair satisfying enter_key's precondition
`prev_key < new_key`), the level-1 separator keeps both body bytes, yet
the one-byte prefix of `new_key` (with its counter) already sorts
strictly greater than `prev_key` — so the stored separator is not the
shortest prefix of `new_key` sorting strictly greater than `prev_key`. -/
theorem C4_enter_key_counterexample :
    Key.lt ⟨[97], 1⟩ ⟨[97, 98], 2⟩ = true ∧
    enter_key_sep 1 ⟨[97], 1⟩ ⟨[97, 98], 2⟩ = ⟨[97, 98], 2⟩ ∧
    (⟨[97], 2⟩ : Key).body = (⟨[97, 98], 2⟩ : Key).body.take 1 ∧
    Key.lt ⟨[97], 1⟩ ⟨[97], 2⟩ = true ∧
    ((⟨[97], 2⟩ : Key).body.length <
      (enter_key_sep 1 ⟨[97], 1⟩ ⟨[97, 98], 2⟩).body.length) := by
  refine ⟨by decide, by decide, by decide, by decide, by decide⟩

/-- C4 (amended): at level 1 the separator stored in the parent is
`new_key` truncated to the common prefix of the two key bodies plus one
byte of difference (all of `new_key` when its body does not extend past
the common prefix), keeping `new_key`'s counter; this separator is a
prefix of `new_key` and sorts strictly greater than `prev_key` (though
not always the shortest such prefix); at every level other than 1 no
truncation is performed and the full `new_key` is used. -/
theorem C4_enter_key_separator (j : Nat) (prevkey newkey : Key)
    (hlt : Key.lt prevkey newkey = true) :
    KeyLT prevkey (enter_key_sep j prevkey newkey) ∧
    (enter_key_sep j prevkey newkey).body =
      newkey.body.take (enter_key_sep j prevkey newkey).body.length ∧
    (enter_key_sep j prevkey newkey).count = newkey.count ∧
    (j = 1 → (enter_key_sep j prevkey newkey).body.length =
      (if commonPrefixLen prevkey.body newkey.body < newkey.body.length
       then commonPrefixLen prevkey.body newkey.body + 1
       else commonPrefixLen prevkey.body newkey.body)) ∧
    (j ≠ 1 → enter_key_sep j prevkey newkey = newkey) := by
  have hKlt : KeyLT prevkey newkey := (Key.lt_iff _ _).mp hlt
  have hfull : enter_key_trunc j prevkey newkey = newkey.body.length →
      enter_key_sep j prevkey newkey = newkey := by
    intro h
    unfold enter_key_sep set_key_and_block
    rw [h, List.take_length]
  have hj1 : j ≠ 1 → enter_key_sep j prevkey newkey = newkey := by
    intro hj
    apply hfull
    unfold enter_key_trunc
    rw [if_neg hj]
  refine ⟨?_, ?_, rfl, ?_, hj1⟩
  · -- the separator sorts strictly greater than prevkey
    by_cases hj : j = 1
    · subst hj
      set cp := commonPrefixLen prevkey.body newkey.body with hcp
      have hcple := commonPrefixLen_le prevkey.body newkey.body
      by_cases hcl : cp < newkey.body.length
      · have htr : enter_key_trunc 1 prevkey newkey = cp + 1 := by
          unfold enter_key_trunc
          rw [if_pos rfl, ← hcp, if_pos hcl]
        have hsep : enter_key_sep 1 prevkey newkey =
            ⟨newkey.body.take (cp + 1), newkey.count⟩ := by
          unfold enter_key_sep set_key_and_block
          rw [htr]
        rw [hsep]
        by_cases hcp2 : cp < prevkey.body.length
        · -- the bodies differ at byte cp, and prevkey's byte is smaller
          have hne := commonPrefixLen_ne prevkey.body newkey.body hcp2 hcl
          have hteq := commonPrefixLen_take_eq prevkey.body newkey.body
          rw [← hcp] at hne hteq
          have hpb : prevkey.body.getD cp 0 < newkey.body.getD cp 0 := by
            rcases hKlt with hb | ⟨hb, _⟩
            · exact (lex_iff_of_common cp _ _ hcp2 hcl hteq hne).mp
                (list_lt_iff_lex.mp hb)
            · exact absurd (by rw [hb]) hne
          left
          rw [list_lt_iff_lex]
          show List.Lex _ prevkey.body (newkey.body.take (cp + 1))
          have hlen1 : cp < (newkey.body.take (cp + 1)).length := by
            rw [List.length_take_of_le (by omega)]
            omega
          have hget : (newkey.body.take (cp + 1)).getD cp 0 = newkey.body.getD cp 0 := by
            rw [List.getD_eq_getElem _ _ hlen1,
              List.getD_eq_getElem _ _ (show cp < newkey.body.length by omega)]
            exact List.getElem_take _
          refine (lex_iff_of_common cp _ _ hcp2 hlen1 ?_ ?_).mpr ?_
          · rw [List.take_take]
            rw [show min cp (cp + 1) = cp by omega]
            exact hteq
          · rw [hget]
            exact hne
          · rw [hget]
            exact hpb
        · -- prevkey's body is exactly the common prefix: proper prefix
          have hcp2' : cp = prevkey.body.length := by omega
          have hpre : prevkey.body = newkey.body.take cp := by
            have hteq := commonPrefixLen_take_eq prevkey.body newkey.body
            rw [← hcp] at hteq
            rw [← hteq, hcp2', List.take_length]
          left
          rw [list_lt_iff_lex]
          show List.Lex _ prevkey.body (newkey.body.take (cp + 1))
          rw [List.take_succ]
          have hsome : newkey.body[cp]? = some (newkey.body[cp]) :=
            List.getElem?_eq_getElem hcl
          rw [hsome, ← hpre]
          exact lex_append_self prevkey.body (by simp)
      · -- the whole of newkey is used
        have htr : enter_key_trunc 1 prevkey newkey = newkey.body.length := by
          unfold enter_key_trunc
          rw [if_pos rfl, ← hcp, if_neg hcl]
          omega
        rw [hfull htr]
        exact hKlt
    · rw [hj1 hj]
      exact hKlt
  · -- the separator's body is a prefix of newkey's body
    unfold enter_key_sep set_key_and_block
    simp only []
    rw [List.length_take]
    rw [List.take_eq_take]
    omega
  · intro hj
    subst hj
    have hcple := commonPrefixLen_le prevkey.body newkey.body
    by_cases hcl : commonPrefixLen prevkey.body newkey.body < newkey.body.length
    · have htr : enter_key_trunc 1 prevkey newkey =
          commonPrefixLen prevkey.body newkey.body + 1 := by
        unfold enter_key_trunc
        rw [if_pos rfl, if_pos hcl]
      unfold enter_key_sep set_key_and_block
      rw [htr, if_pos hcl, List.length_take]
      omega
    · have htr : enter_key_trunc 1 prevkey newkey =
          commonPrefixLen prevkey.body newkey.body := by
        unfold enter_key_trunc
        rw [if_pos rfl, if_neg hcl]
      unfold enter_key_sep set_key_and_block
      rw [htr, if_neg hcl, List.length_take]
      omega

theorem C4_enter_key_separator_witness :
    Key.lt ⟨[97], 1⟩ ⟨[98, 99], 1⟩ = true ∧
    KeyLT ⟨[97], 1⟩ (enter_key_sep 1 ⟨[97], 1⟩ ⟨[98, 99], 1⟩) ∧
    enter_key_sep 2 ⟨[97], 1⟩ ⟨[98, 99], 1⟩ = ⟨[98, 99], 1⟩ :=
  ⟨by decide,
   (C4_enter_key_separator 1 ⟨[97], 1⟩ ⟨[98, 99], 1⟩ (by decide)).1,
   (C4_enter_key_separator 2 ⟨[97], 1⟩ ⟨[98, 99], 1⟩ (by decide)).2.2.2.2 (by decide)⟩

/-! ### `block_to_cursor` and `set_overwritten` -/

/-- The header fields and child pointers of an on-disk block as read by
`block_to_cursor`. -/
structure PBlock where
  revision : Nat
  level : Nat
  children : List Nat
deriving DecidableEq, Repr

/-- One cursor level: owned block, block number, rewrite flag. -/
structure CurLvl where
  p : PBlock
  n : Nat
  rewrite : Bool
deriving DecidableEq, Repr

/-- Read block `n` of the DB file (the store is the block file, indexed
by block number). -/
def storeRead (store : List PBlock) (n : Nat) : PBlock :=
  store.getD n ⟨0, 0, []⟩

/-- `FlintTable::set_overwritten` (flint_table.cc). -/
def set_overwritten (writable : Bool) : XErr :=
  if writable then
    XErr.DatabaseCorruptError "Db block overwritten - are there multiple writers?"
  else
    XErr.DatabaseModifiedError "The revision being read has been discarded - reopen and retry"

/-- The block `block_to_cursor` puts at level `j`: the built-in cursor's
buffer when the writer already holds block `n` at this level (possibly in
modified form), the on-disk block otherwise. -/
def loadedBlock (store : List PBlock) (writable : Bool) (builtinN : Nat)
    (builtinP : PBlock) (n : Nat) : PBlock :=
  if writable = true ∧ n = builtinN then builtinP else storeRead store n

/-- `FlintTable::block_to_cursor(C_, j, n)` (flint_table.cc): no-op when
the level already holds `n`; otherwise write back a pending rewrite, load
the block (from the built-in cursor or from disk), record it at the
level, and for `j < level` raise the overwritten error when its revision
exceeds the revision of the block at level `j + 1`. -/
def block_to_cursor (store : List PBlock) (writable : Bool) (builtinN : Nat)
    (builtinP : PBlock) (level : Nat) (Cj : CurLvl) (Cj1p : PBlock)
    (j : Nat) (n : Nat) : CurLvl × Option XErr :=
  if n = Cj.n then (Cj, none)
  else
    let p := loadedBlock store writable builtinN builtinP n
    let Cj' : CurLvl := { p := p, n := n, rewrite := false }
    if j < level ∧ Cj1p.revision < p.revision then
      (Cj', some (set_overwritten writable))
    else
      (Cj', none)

/-- C5: whenever `block_to_cursor` loads a block into cursor level `j`
below the root, the loaded block's level field equals `j` (given the
child-level invariant of the store and of the built-in cursor), and if
the loaded block's revision exceeds the cursor's snapshot revision
(which bounds the revision of the block at level `j + 1`), the operation
returns the overwritten error — `DatabaseCorruptError` when the table is
writable, `DatabaseModifiedError` for a reader. -/
theorem C5_block_to_cursor (store : List PBlock) (writable : Bool)
    (builtinN : Nat) (builtinP : PBlock) (level : Nat) (Cj : CurLvl)
    (Cj1p : PBlock) (j n snap : Nat) (hnew : n ≠ Cj.n) :
    ((store.all (fun b => b.children.all
        (fun m => decide ((storeRead store m).level + 1 = b.level))) = true) →
      Cj1p ∈ store → n ∈ Cj1p.children → Cj1p.level = j + 1 →
      (writable = true → builtinP.level = j) →
      ((block_to_cursor store writable builtinN builtinP level Cj Cj1p j n).1).p.level = j) ∧
    (j < level → Cj1p.revision ≤ snap →
      snap < (loadedBlock store writable builtinN builtinP n).revision →
      (block_to_cursor store writable builtinN builtinP level Cj Cj1p j n).2 =
        some (set_overwritten writable)) ∧
    set_overwritten true =
      XErr.DatabaseCorruptError "Db block overwritten - are there multiple writers?" ∧
    set_overwritten false =
      XErr.DatabaseModifiedError "The revision being read has been discarded - reopen and retry" := by
  refine ⟨?_, ?_, rfl, rfl⟩
  · intro hinv hmem hchild hlvl hb
    have hload : ((block_to_cursor store writable builtinN builtinP level Cj Cj1p j n).1).p
        = loadedBlock store writable builtinN builtinP n := by
      unfold block_to_cursor
      rw [if_neg hnew]
      by_cases hc : j < level ∧ Cj1p.revision < (loadedBlock store writable builtinN builtinP n).revision
      · rw [if_pos hc]
      · rw [if_neg hc]
    rw [hload]
    unfold loadedBlock
    by_cases hw : writable = true ∧ n = builtinN
    · rw [if_pos hw]
      exact hb hw.1
    · rw [if_neg hw]
      have h1 := (List.all_eq_true.mp hinv) Cj1p hmem
      have h2 := (List.all_eq_true.mp h1) n hchild
      have h3 : (storeRead store n).level + 1 = Cj1p.level := of_decide_eq_true h2
      omega
  · intro hj hsnap hrev
    unfold block_to_cursor
    rw [if_neg hnew, if_pos ⟨hj, by omega⟩]

/-- A two-block store: block 0 is the level-1 parent of block 1. -/
def c5Store : List PBlock := [⟨2, 1, [1]⟩, ⟨4, 0, []⟩]

/-- C5 counterexample: `block_to_cursor` is also called with `j = level`
(`read_root`, and the root collapse in `delete_item`), and there the
revision check is skipped, because the check sits inside `if (j < level)`.
A reader whose snapshot revision is 1 loading root block 0 — a genuine
load, the level does not yet hold block 0 — gets a block of revision 2,
exceeding the snapshot, yet no overwritten error is raised.  So "whenever
block_to_cursor loads a block ... raises the overwritten error" fails at
the root level; the raise only happens at levels strictly below the
root. -/
theorem C5_block_to_cursor_counterexample :
    (0 ≠ (⟨⟨0, 0, []⟩, 7, false⟩ : CurLvl).n) ∧
    (1 : Nat) < (loadedBlock c5Store false 0 ⟨0, 0, []⟩ 0).revision ∧
    (block_to_cursor c5Store false 0 ⟨0, 0, []⟩ 1 ⟨⟨0, 0, []⟩, 7, false⟩
        ⟨1, 2, []⟩ 1 0).2 = none := by
  decide

/-! ### Blocks: `compact`, `add_item_to_block`, `delete_item`,
`mid_point`, `add_item` -/

/-- A block: its size, the slot directory in key order — each entry the
item's byte offset and the item's bytes — and the stored `MAX_FREE` /
`TOTAL_FREE` header fields.  (`DIR_START = 11`, slots are 2 bytes, so
`DIR_END = 11 + 2 * items.length`.) -/
structure Block where
  blockSize : Int
  items : List (Int × List Nat)
  maxFree : Int
  totalFree : Int
deriving DecidableEq, Repr

/-- `DIR_END` of a block. -/
def Block.dirEnd (b : Block) : Int := 11 + 2 * b.items.length

/-- Total byte size of a directory's items. -/
def itemsSize (its : List (Int × List Nat)) : Int :=
  (its.map (fun it => (it.2.length : Int))).sum

/-- `TOTAL_FREE` is the block's free bytes: header consistency invariant
(spec: total_free = block_size − header − directory − Σ item sizes). -/
def Block.consistent (b : Block) : Prop :=
  b.totalFree = b.blockSize - b.dirEnd - itemsSize b.items

/-- The loop of `FlintTable::compact` (flint_table.cc): walks the
directory in slot order, moving each item to the current end `e` and
storing the new offset. -/
def compactGo : Int → List (Int × List Nat) → Int × List (Int × List Nat)
  | e, [] => (e, [])
  | e, it :: rest =>
    let r := compactGo (e - it.2.length) rest
    (r.1, (e - it.2.length, it.2) :: r.2)

/-- `FlintTable::compact(p)` (flint_table.cc): shuffle all items up to
the end of the block and reset `TOTAL_FREE` and `MAX_FREE` to the
resulting gap. -/
def compact (b : Block) : Block :=
  let r := compactGo b.blockSize b.items
  { b with items := r.2, totalFree := r.1 - b.dirEnd, maxFree := r.1 - b.dirEnd }

/-- `FlintTable::add_item_to_block(p, kt_, c)` (flint_table.cc): make
room for the new directory slot at offset `c`, compact first when the
`MAX_FREE` gap cannot take the item, place the item at the start of the
gap. -/
def add_item_to_block (b : Block) (kt : List Nat) (c : Int) : Block :=
  let kt_len : Int := kt.length
  let needed := kt_len + 2
  let new_total := b.totalFree - needed
  let b1 := if b.maxFree - needed < 0 then compact b else b
  let new_max := b1.maxFree - needed
  let dir_end := b1.dirEnd + 2
  let o := dir_end + new_max
  { b1 with
    items := List.insertIdx ((c - 11) / 2).toNat (o, kt) b1.items,
    totalFree := new_total,
    maxFree := new_max }

/-- The in-block effect of `FlintTable::delete_item(j, repeatedly)`
(flint_table.cc): remove the slot at `c`, return the slot bytes to
`MAX_FREE` and the item plus slot bytes to `TOTAL_FREE`.  (The
`repeatedly` cascade frees emptied blocks at the levels above and is
outside this single-block model.) -/
def delete_item (b : Block) (c : Int) : Block :=
  let idx := ((c - 11) / 2).toNat
  let kt_len : Int := (b.items.getD idx (0, [])).2.length
  { b with
    items := b.items.eraseIdx idx,
    maxFree := b.maxFree + 2,
    totalFree := b.totalFree + kt_len + 2 }

theorem compactGo_fst : ∀ (e : Int) (its : List (Int × List Nat)),
    (compactGo e its).1 = e - itemsSize its
  | e, [] => by simp [compactGo, itemsSize]
  | e, it :: rest => by
    rw [compactGo]
    simp only []
    rw [compactGo_fst (e - it.2.length) rest]
    unfold itemsSize
    simp only [List.map_cons, List.sum_cons]
    ring

theorem compactGo_snd_data : ∀ (e : Int) (its : List (Int × List Nat)),
    (compactGo e its).2.map Prod.snd = its.map Prod.snd
  | e, [] => by simp [compactGo]
  | e, it :: rest => by
    rw [compactGo]
    simp only [List.map_cons]
    rw [compactGo_snd_data (e - it.2.length) rest]

theorem compactGo_length (e : Int) (its : List (Int × List Nat)) :
    (compactGo e its).2.length = its.length := by
  have := compactGo_snd_data e its
  have h1 := congrArg List.length this
  simpa using h1

theorem compactGo_offsets : ∀ (e : Int) (its : List (Int × List Nat)) (i : Nat)
    (hi : i < (compactGo e its).2.length),
    ((compactGo e its).2[i]).1 = e - itemsSize (its.take (i + 1))
  | e, [], i => by
    intro hi
    simp [compactGo] at hi
  | e, it :: rest, 0 => by
    intro hi
    have hexp : (compactGo e (it :: rest)).2
        = (e - it.2.length, it.2) :: (compactGo (e - it.2.length) rest).2 := rfl
    rw [List.getElem_of_eq hexp, List.getElem_cons_zero]
    simp [itemsSize]
  | e, it :: rest, i + 1 => by
    intro hi
    have hexp : (compactGo e (it :: rest)).2
        = (e - it.2.length, it.2) :: (compactGo (e - it.2.length) rest).2 := rfl
    have hi2 : i < (compactGo (e - it.2.length) rest).2.length := by
      rw [hexp] at hi
      simpa using hi
    rw [List.getElem_of_eq hexp, List.getElem_cons_succ]
    rw [compactGo_offsets (e - it.2.length) rest i hi2]
    simp only [List.take_succ_cons]
    unfold itemsSize
    simp only [List.map_cons, List.sum_cons]
    ring

theorem compact_totalFree (b : Block) :
    (compact b).totalFree = b.blockSize - b.dirEnd - itemsSize b.items := by
  unfold compact
  simp only []
  rw [compactGo_fst]
  ring

theorem compact_maxFree (b : Block) : (compact b).maxFree = (compact b).totalFree := rfl

theorem compact_data (b : Block) :
    (compact b).items.map Prod.snd = b.items.map Prod.snd := by
  unfold compact
  exact compactGo_snd_data _ _

/-- C9: after `compact(p)` all items are stored contiguously from the end
of the block (the i-th slot's offset is the block size minus the sizes of
items 0..i), the slot directory points at the moved items (the directory
holds the same item bytes in the same order), and `MAX_FREE = TOTAL_FREE`
(with the stated value); moreover `max_free ≤ total_free` is an invariant
of the block-local mutators: `compact` establishes it, and
`add_item_to_block` (on a consistent block with room for the item) and
`delete_item` preserve it. -/
theorem C9_compact_contiguous_invariant (b : Block) (kt : List Nat) (c : Int) :
    ((compact b).items.map Prod.snd = b.items.map Prod.snd) ∧
    (∀ (i : Nat) (hi : i < (compact b).items.length),
      ((compact b).items[i]).1 = b.blockSize - itemsSize (b.items.take (i + 1))) ∧
    ((compact b).maxFree = (compact b).totalFree ∧
     (compact b).totalFree = b.blockSize - b.dirEnd - itemsSize b.items) ∧
    (b.maxFree ≤ b.totalFree → b.consistent → (kt.length : Int) + 2 ≤ b.totalFree →
      (add_item_to_block b kt c).maxFree ≤ (add_item_to_block b kt c).totalFree) ∧
    (b.maxFree ≤ b.totalFree →
      (delete_item b c).maxFree ≤ (delete_item b c).totalFree) := by
  refine ⟨compact_data b, ?_, ⟨compact_maxFree b, compact_totalFree b⟩, ?_, ?_⟩
  · intro i hi
    unfold compact at hi ⊢
    exact compactGo_offsets b.blockSize b.items i hi
  · intro hle hcons hroom
    unfold add_item_to_block
    simp only []
    by_cases hcomp : b.maxFree - ((kt.length : Int) + 2) < 0
    · rw [if_pos hcomp]
      have h1 := compact_totalFree b
      have h2 := compact_maxFree b
      unfold Block.consistent at hcons
      omega
    · rw [if_neg hcomp]
      omega
  · intro hle
    unfold delete_item
    simp only []
    have hnn : (0 : Int) ≤ ((b.items.getD ((c - 11) / 2).toNat (0, [])).2.length : Int) := by
      positivity
    omega

/-- The loop of `FlintTable::mid_point(p)` (flint_table.cc): accumulate
twice the item sizes until the running total reaches the used size, then
return the current slot or the next one. -/
def mid_point_go : Int → Int → Int → List (Int × List Nat) → Int
  | _, _, _, [] => 0
  | n, size, c, it :: rest =>
    let l : Int := it.2.length
    let n2 := n + 2 * l
    if size ≤ n2 then
      (if l < n2 - size then c else c + 2)
    else mid_point_go n2 size (c + 2) rest

/-- `FlintTable::mid_point(p)` (flint_table.cc): the directory slot of
the approximate byte-weighted mid point of the block's data. -/
def mid_point (b : Block) : Int :=
  mid_point_go 0 (b.blockSize - b.totalFree - b.dirEnd) 11 b.items

/-- Result of `add_item`: either the item was added to the block, or the
block split — recording the slot `m` at which the directory was cut
(`SET_DIR_END(split_p, m)`), the lower half (`split_p`, written out), the
upper half (`p`), and `add_to_upper_half`. -/
inductive AddItemRes where
  | nosplit : Block → AddItemRes
  | split : Int → Block → Block → Bool → AddItemRes
deriving DecidableEq, Repr

/-- The block-content part of `FlintTable::add_item(kt_, j)`
(flint_table.cc): if the item does not fit, split at `mid_point` (or at
the insertion slot in sequential mode), compact both halves, and add the
item to the half chosen by slot position (non-sequential) or by whether
the lower half still has room (sequential).  Block-number allocation and
the recursive `enter_key`/`split_root` calls live above this model. -/
def add_item (b : Block) (kt : List Nat) (c : Int) (seq_count : Int) : AddItemRes :=
  let needed : Int := kt.length + 2
  if b.totalFree < needed then
    let m := if seq_count < 0 then mid_point b else c
    let idx := ((m - 11) / 2).toNat
    let split_p := compact { b with items := b.items.take idx }
    let p2 := compact { b with items := b.items.drop idx }
    let add_to_upper_half :=
      if seq_count < 0 then decide (m ≤ c) else decide (split_p.totalFree < needed)
    if add_to_upper_half then
      AddItemRes.split m split_p (add_item_to_block p2 kt (c - (m - 11))) true
    else
      AddItemRes.split m (add_item_to_block split_p kt c) p2 false
  else
    AddItemRes.nosplit (add_item_to_block b kt c)

theorem itemsSize_cons (it : Int × List Nat) (rest : List (Int × List Nat)) :
    itemsSize (it :: rest) = it.2.length + itemsSize rest := by
  unfold itemsSize
  simp

theorem itemsSize_nonneg : ∀ (its : List (Int × List Nat)), 0 ≤ itemsSize its
  | [] => by simp [itemsSize]
  | it :: rest => by
    rw [itemsSize_cons]
    have := itemsSize_nonneg rest
    positivity

theorem map_insertIdx {α β : Type} (f : α → β) :
    ∀ (n : Nat) (a : α) (l : List α),
      (List.insertIdx n a l).map f = List.insertIdx n (f a) (l.map f)
  | 0, a, l => rfl
  | n + 1, a, [] => rfl
  | n + 1, a, x :: xs => by
    simp only [List.insertIdx_succ_cons, List.map_cons]
    rw [map_insertIdx f n a xs]

theorem add_item_to_block_data (b : Block) (kt : List Nat) (c : Int) :
    (add_item_to_block b kt c).items.map Prod.snd
      = List.insertIdx ((c - 11) / 2).toNat kt (b.items.map Prod.snd) := by
  unfold add_item_to_block
  simp only []
  rw [map_insertIdx]
  by_cases h : b.maxFree - ((kt.length : Int) + 2) < 0
  · rw [if_pos h, compact_data]
  · rw [if_neg h]

theorem compact_take_totalFree (b : Block) (idx : Nat) (hidx : idx ≤ b.items.length) :
    (compact { b with items := b.items.take idx }).totalFree
      = b.blockSize - (11 + 2 * idx) - itemsSize (b.items.take idx) := by
  rw [compact_totalFree]
  unfold Block.dirEnd
  simp only []
  rw [List.length_take_of_le hidx]

theorem mid_point_go_bounds : ∀ (its : List (Int × List Nat)) (n size c : Int),
    its ≠ [] → size ≤ n + 2 * itemsSize its →
    c ≤ mid_point_go n size c its ∧
    mid_point_go n size c its ≤ c + 2 * its.length ∧
    mid_point_go n size c its % 2 = c % 2
  | [], _, _, _ => by
    intro h _
    exact absurd rfl h
  | it :: rest, n, size, c => by
    intro _ hsz
    rw [mid_point_go]
    have hlen : (0 : Int) ≤ (rest.length : Int) := by positivity
    by_cases hge : size ≤ n + 2 * (it.2.length : Int)
    · rw [if_pos hge]
      by_cases hl : (it.2.length : Int) < n + 2 * (it.2.length : Int) - size
      · rw [if_pos hl]
        refine ⟨le_refl _, ?_, rfl⟩
        simp only [List.length_cons]
        push_cast
        omega
      · rw [if_neg hl]
        refine ⟨by omega, ?_, by omega⟩
        simp only [List.length_cons]
        push_cast
        omega
    · rw [if_neg hge]
      have hrest : rest ≠ [] := by
        intro hr
        subst hr
        rw [itemsSize_cons] at hsz
        unfold itemsSize at hsz
        simp at hsz
        omega
      have hsz2 : size ≤ n + 2 * (it.2.length : Int) + 2 * itemsSize rest := by
        rw [itemsSize_cons] at hsz
        omega
      have IH := mid_point_go_bounds rest (n + 2 * (it.2.length : Int)) size (c + 2)
        hrest hsz2
      refine ⟨by omega, ?_, by omega⟩
      simp only [List.length_cons]
      push_cast
      omega

/-- On a consistent block, `mid_point` returns an aligned slot offset
within the directory. -/
theorem mid_point_bounds (b : Block) (hcons : b.consistent) (hne : b.items ≠ []) :
    11 ≤ mid_point b ∧ mid_point b ≤ b.dirEnd ∧ mid_point b % 2 = 1 := by
  unfold mid_point
  have hsz : b.blockSize - b.totalFree - b.dirEnd ≤ 0 + 2 * itemsSize b.items := by
    unfold Block.consistent at hcons
    have := itemsSize_nonneg b.items
    omega
  have h := mid_point_go_bounds b.items 0 (b.blockSize - b.totalFree - b.dirEnd) 11
    hne hsz
  unfold Block.dirEnd
  exact ⟨h.1, h.2.1, h.2.2⟩

theorem add_item_split_eq (b : Block) (kt : List Nat) (c : Int) (seq_count : Int)
    (hsplit : b.totalFree < (kt.length : Int) + 2) :
    add_item b kt c seq_count =
      (let m := if seq_count < 0 then mid_point b else c
       let idx := ((m - 11) / 2).toNat
       let split_p := compact { b with items := b.items.take idx }
       let p2 := compact { b with items := b.items.drop idx }
       let add_to_upper_half := if seq_count < 0 then decide (m ≤ c)
         else decide (split_p.totalFree < (kt.length : Int) + 2)
       if add_to_upper_half then
         AddItemRes.split m split_p (add_item_to_block p2 kt (c - (m - 11))) true
       else
         AddItemRes.split m (add_item_to_block split_p kt c) p2 false) := by
  unfold add_item
  rw [if_pos hsplit]

/-- C3: when `add_item` must split because the item does not fit, the cut
slot is `mid_point` when `seq_count < 0` and the insertion slot when
`seq_count ≥ 0`; the lower half receives the directory entries strictly
before the cut and the upper half the rest, with the new item inserted in
the chosen half; and in sequential mode the new item goes to the lower
half exactly when the (compacted) lower half still has room for the item
and its directory slot. -/
theorem C3_add_item_split (b : Block) (kt : List Nat) (c : Int) (seq_count : Int)
    (hsplit : b.totalFree < (kt.length : Int) + 2) (hcons : b.consistent)
    (hne : b.items ≠ []) (hc1 : 11 ≤ c) (hc2 : c ≤ b.dirEnd) (hcodd : c % 2 = 1) :
    ∃ m lo hi up, add_item b kt c seq_count = AddItemRes.split m lo hi up ∧
      (seq_count < 0 → m = mid_point b) ∧
      (0 ≤ seq_count → m = c) ∧
      (up = true →
        lo.items.map Prod.snd = (b.items.take ((m - 11) / 2).toNat).map Prod.snd ∧
        kt ∈ hi.items.map Prod.snd) ∧
      (up = false →
        kt ∈ lo.items.map Prod.snd ∧
        hi.items.map Prod.snd = (b.items.drop ((m - 11) / 2).toNat).map Prod.snd) ∧
      (0 ≤ seq_count →
        (up = false ↔ (kt.length : Int) + 2 ≤
          b.blockSize - m - itemsSize (b.items.take ((m - 11) / 2).toNat))) := by
  have hlen0 : (0 : Int) ≤ (b.items.length : Int) := by positivity
  -- bounds for the cut slot
  have hmb : 11 ≤ (if seq_count < 0 then mid_point b else c) ∧
      (if seq_count < 0 then mid_point b else c) ≤ b.dirEnd ∧
      (if seq_count < 0 then mid_point b else c) % 2 = 1 := by
    by_cases hseq : seq_count < 0
    · rw [if_pos hseq]
      exact mid_point_bounds b hcons hne
    · rw [if_neg hseq]
      exact ⟨hc1, hc2, hcodd⟩
  set m := (if seq_count < 0 then mid_point b else c) with hmdef
  set idx := ((m - 11) / 2).toNat with hidxdef
  have hidx : m = 11 + 2 * (idx : Int) := by
    have h1 := hmb.1
    have h2 := hmb.2.2
    omega
  have hidxlen : idx ≤ b.items.length := by
    have h2 := hmb.2.1
    unfold Block.dirEnd at h2
    omega
  set split_p := compact { b with items := b.items.take idx } with hsp
  set p2 := compact { b with items := b.items.drop idx } with hp2
  set up := (if seq_count < 0 then decide (m ≤ c)
    else decide (split_p.totalFree < (kt.length : Int) + 2)) with hupdef
  have hai : add_item b kt c seq_count =
      (if up then
        AddItemRes.split m split_p (add_item_to_block p2 kt (c - (m - 11))) true
      else
        AddItemRes.split m (add_item_to_block split_p kt c) p2 false) := by
    rw [add_item_split_eq b kt c seq_count hsplit]
  have hsp_data : split_p.items.map Prod.snd = (b.items.take idx).map Prod.snd := by
    rw [hsp, compact_data]
  have hp2_data : p2.items.map Prod.snd = (b.items.drop idx).map Prod.snd := by
    rw [hp2, compact_data]
  have hroom_iff : (split_p.totalFree < (kt.length : Int) + 2) ↔
      ¬ ((kt.length : Int) + 2 ≤ b.blockSize - m - itemsSize (b.items.take idx)) := by
    rw [hsp, compact_take_totalFree b idx hidxlen, hidx]
    omega
  by_cases hupv : up = true
  · refine ⟨m, split_p, add_item_to_block p2 kt (c - (m - 11)), true,
      by rw [hai, if_pos hupv], ?_, ?_, ?_, ?_, ?_⟩
    · intro hseq
      rw [hmdef, if_pos hseq]
    · intro hseq
      rw [hmdef, if_neg (by omega)]
    · intro _
      refine ⟨hsp_data, ?_⟩
      rw [add_item_to_block_data, hp2_data]
      have hup_c : m ≤ c := by
        by_cases hseq : seq_count < 0
        · rw [hupdef, if_pos hseq] at hupv
          exact of_decide_eq_true hupv
        · rw [hmdef, if_neg hseq]
      have hins : ((c - (m - 11) - 11) / 2).toNat ≤
          ((b.items.drop idx).map Prod.snd).length := by
        rw [List.length_map, List.length_drop]
        unfold Block.dirEnd at hc2
        omega
      exact (List.mem_insertIdx hins).mpr (Or.inl rfl)
    · intro hfalse
      exact Bool.noConfusion hfalse
    · intro hseq
      constructor
      · intro hfalse
        exact Bool.noConfusion hfalse
      · intro hroom
        exfalso
        rw [hupdef, if_neg (by omega)] at hupv
        exact (hroom_iff.mp (of_decide_eq_true hupv)) hroom
  · have hupf : up = false := by
      rw [Bool.not_eq_true] at hupv
      exact hupv
    refine ⟨m, add_item_to_block split_p kt c, p2, false,
      by rw [hai, if_neg (by rw [hupf]; exact Bool.false_ne_true)], ?_, ?_, ?_, ?_, ?_⟩
    · intro hseq
      rw [hmdef, if_pos hseq]
    · intro hseq
      rw [hmdef, if_neg (by omega)]
    · intro htrue
      exact Bool.noConfusion htrue
    · intro _
      refine ⟨?_, hp2_data⟩
      rw [add_item_to_block_data, hsp_data]
      have hdown_c : c ≤ m := by
        by_cases hseq : seq_count < 0
        · rw [hupdef, if_pos hseq] at hupf
          have := of_decide_eq_false hupf
          omega
        · rw [hmdef, if_neg hseq]
      have hins : ((c - 11) / 2).toNat ≤ ((b.items.take idx).map Prod.snd).length := by
        rw [List.length_map, List.length_take_of_le hidxlen]
        omega
      exact (List.mem_insertIdx hins).mpr (Or.inl rfl)
    · intro hseq
      constructor
      · intro _
        rw [hupdef, if_neg (by omega)] at hupf
        have hnr := of_decide_eq_false hupf
        exact not_not.mp (fun hno => hnr (hroom_iff.mpr hno))
      · intro _
        rfl

/-- A full consistent block used to instantiate the theorems:
blockSize 32, two items of 7 bytes each, directory end 15, total free
32 − 15 − 14 = 3 < needed. -/
def c3Block : Block :=
  ⟨32, [(25, [1, 2, 3, 4, 5, 6, 7]), (18, [8, 9, 10, 11, 12, 13, 14])], 3, 3⟩

theorem C3_add_item_split_witness :
    (c3Block.totalFree < (([20, 21, 22] : List Nat).length : Int) + 2 ∧
     c3Block.consistent ∧ c3Block.items ≠ [] ∧ (11 : Int) ≤ 15 ∧
     (15 : Int) ≤ c3Block.dirEnd ∧ (15 : Int) % 2 = 1) ∧
    ∃ m lo hi up, add_item c3Block [20, 21, 22] 15 0 = AddItemRes.split m lo hi up ∧
      m = 15 :=
  ⟨⟨by decide, by unfold Block.consistent; decide, by decide, by decide, by decide,
    by decide⟩,
   match C3_add_item_split c3Block [20, 21, 22] 15 0 (by decide)
     (by unfold Block.consistent; decide)
     (by decide) (by decide) (by decide) (by decide) with
   | ⟨m, lo, hi, up, heq, _, hseq, _, _, _⟩ => ⟨m, lo, hi, up, heq, hseq (by decide)⟩⟩

/-- A consistent block used to instantiate the theorems. -/
def c9Block : Block := ⟨64, [(40, [1, 2]), (20, [3])], 5, 46⟩

theorem C9_compact_contiguous_invariant_witness :
    (compact c9Block).maxFree = (compact c9Block).totalFree ∧
    (c9Block.maxFree ≤ c9Block.totalFree ∧
      (delete_item c9Block 11).maxFree ≤ (delete_item c9Block 11).totalFree) :=
  ⟨(C9_compact_contiguous_invariant c9Block [9] 11).2.2.1.1,
   by decide,
   (C9_compact_contiguous_invariant c9Block [9] 11).2.2.2.2 (by decide)⟩

theorem C5_block_to_cursor_witness :
    (1 ≠ (⟨⟨0, 0, []⟩, 7, false⟩ : CurLvl).n) ∧
    ((block_to_cursor c5Store false 0 ⟨0, 0, []⟩ 1 ⟨⟨0, 0, []⟩, 7, false⟩
        ⟨2, 1, [1]⟩ 0 1).1).p.level = 0 ∧
    (block_to_cursor c5Store false 0 ⟨0, 0, []⟩ 1 ⟨⟨0, 0, []⟩, 7, false⟩
        ⟨2, 1, [1]⟩ 0 1).2 = some (set_overwritten false) :=
  ⟨by decide,
   (C5_block_to_cursor c5Store false 0 ⟨0, 0, []⟩ 1 ⟨⟨0, 0, []⟩, 7, false⟩
      ⟨2, 1, [1]⟩ 0 1 3 (by decide)).1 (by decide) (by decide) (by decide)
      (by decide) (fun h => Bool.noConfusion h),
   (C5_block_to_cursor c5Store false 0 ⟨0, 0, []⟩ 1 ⟨⟨0, 0, []⟩, 7, false⟩
      ⟨2, 1, [1]⟩ 0 1 3 (by decide)).2.1 (by decide) (by decide) (by decide)⟩

/-! ### Table-level operations: del, get_exact_entry, key_exists (C7, C8)

The table is abstracted by its leaf item sequence, in key order: each
stored item is a pair of its full key (base key bytes plus the two-byte
component counter) and its `components_of` count.  `find` on this
abstraction is the leaf-level result established by `BTree.findr_spec`:
the cursor lands on the matching item and `found` is whether some leaf
item's key equals the search key. -/

/-- Modelled from the spec: `FLINT_BTREE_MAX_KEY_LEN` is 252 (it lives in
flint_table.h, which is not part of src; flint_table.cc compares key
sizes against it in del, get_exact_entry and key_exists). -/
def FLINT_BTREE_MAX_KEY_LEN : Nat := 252

/-- The leaf-level abstraction of a `FlintTable`: the open handle, the
stored items (full key and `components_of`), and `item_count`. -/
structure Table where
  handle : Int
  items : List (Key × Nat)
  item_count : Nat
deriving DecidableEq, Repr

/-- Modelled from the spec: `FlintTable::form_key` (flint_table.cc) fills
kt with the key and counter 1 (src comment: "c is set to 1"); the
oversized-key check lives in Item_wr_::form_key in flint_table.h, which
the spec reports as an "unimplemented" fault for keys longer than
`FLINT_BTREE_MAX_KEY_LEN` — this is the fault `add` raises. -/
def form_key (key : List Nat) : Except XErr Key :=
  if FLINT_BTREE_MAX_KEY_LEN < key.length then
    Except.error (XErr.UnimplementedError "Key too long")
  else Except.ok (formKey key)

/-- `FlintTable::delete_kt` (flint_table.cc) on the leaf abstraction:
`find` locates the item whose key equals kt's key (the first, and by
sortedness only, match); if found, its `components_of` is read and the
item is deleted with `delete_item`, else nothing is done and 0 is
returned. -/
def delete_kt (t : Table) (target : Key) : Table × Nat :=
  let i := t.items.findIdx (fun it => Key.eq it.1 target)
  if h : i < t.items.length then
    ({ t with items := t.items.eraseIdx i }, (t.items.get ⟨i, h⟩).2)
  else (t, 0)

/-- The loop `for (int i = 2; i <= n; i++) { kt.set_component_of(i);
delete_kt(); }` of `FlintTable::del` (flint_table.cc): fuel is the
number of remaining components `n - i + 1`. -/
def delComponents : Table → List Nat → Nat → Nat → Table
  | t, _, _, 0 => t
  | t, key, i, fuel + 1 => delComponents (delete_kt t ⟨key, i⟩).1 key (i + 1) fuel

/-- The body of `FlintTable::del` after its guards (flint_table.cc):
delete component 1; if nothing was there return false, else delete the
remaining components 2..n and decrement `item_count`. -/
def delMain (t : Table) (key : List Nat) : Table × Bool × Option XErr :=
  let td := delete_kt t (formKey key)
  if td.2 = 0 then (td.1, false, none)
  else
    let t2 := delComponents td.1 key 2 (td.2 - 1)
    ({ t2 with item_count := t2.item_count - 1 }, true, none)

/-- `FlintTable::del(key)` (flint_table.cc): closed/unopened handle and
key-length guards, then `delMain`. -/
def del (t : Table) (key : List Nat) : Table × Bool × Option XErr :=
  if t.handle < 0 then
    (if t.handle = -2 then
      (t, false, some (XErr.DatabaseError "Database has been closed"))
     else (t, false, none))
  else if FLINT_BTREE_MAX_KEY_LEN < key.length then (t, false, none)
  else if key = [] then (t, false, none)
  else delMain t key

/-- `FlintTable::get_exact_entry(key, tag)` (flint_table.cc): handle and
key-length guards, then `find`; reading the tag into `tag` on success is
beyond this model, the returned Bool is the `find` result. -/
def get_exact_entry (t : Table) (key : List Nat) : Bool × Option XErr :=
  if t.handle < 0 then
    (if t.handle = -2 then
      (false, some (XErr.DatabaseError "Database has been closed"))
     else (false, none))
  else if FLINT_BTREE_MAX_KEY_LEN < key.length then (false, none)
  else (t.items.any (fun it => Key.eq it.1 (formKey key)), none)

/-- `FlintTable::key_exists(key)` (flint_table.cc): key-length guard,
then the `find` result. -/
def key_exists (t : Table) (key : List Nat) : Bool :=
  if FLINT_BTREE_MAX_KEY_LEN < key.length then false
  else t.items.any (fun it => Key.eq it.1 (formKey key))

theorem findIdx_get_sat {α : Type} (p : α → Bool) (l : List α)
    (h : l.findIdx p < l.length) :
    p (l.get ⟨l.findIdx p, h⟩) = true ∧ l.get ⟨l.findIdx p, h⟩ ∈ l := by
  constructor
  · rw [List.get_eq_getElem]
    exact List.findIdx_getElem
  · exact List.get_mem l (l.findIdx p) h

/-- Erasing the item `find` points at leaves no key-equal item behind:
the entries before the found slot do not match (it is the first match)
and by strict sortedness no later entry can be equivalent to it. -/
theorem any_eq_erase_findIdx (target : Key) :
    ∀ (ks : List (Key × Nat)), (ks.map Prod.fst).Pairwise KeyLT →
      ((ks.eraseIdx (ks.findIdx (fun it => Key.eq it.1 target))).any
        (fun it => Key.eq it.1 target)) = false
  | [] => by intro _; rfl
  | a :: rest => by
    intro hp
    rw [List.map_cons, List.pairwise_cons] at hp
    by_cases ha : Key.eq a.1 target = true
    · simp only [List.findIdx_cons, ha, cond_true, List.eraseIdx_cons_zero]
      rw [List.any_eq_false]
      intro x hx hxe
      have heqv_a := (Key.eq_iff a.1 target).mp ha
      have heqv_x := (Key.eq_iff x.1 target).mp hxe
      have hlt := hp.1 x.1 (List.mem_map.mpr ⟨x, hx, rfl⟩)
      have hlt2 := (keyEqv_lt_congr_left heqv_a).mp hlt
      have hlt3 := (keyEqv_lt_congr_right heqv_x).mp hlt2
      exact keyEqv_not_lt ⟨rfl, rfl⟩ hlt3
    · have ha2 : Key.eq a.1 target = false := by
        rw [Bool.not_eq_true] at ha
        exact ha
      simp only [List.findIdx_cons, ha2, cond_false, List.eraseIdx_cons_succ,
        List.any_cons]
      rw [any_eq_erase_findIdx target rest hp.2]
      rfl

theorem delete_kt_item_count (t : Table) (k : Key) :
    (delete_kt t k).1.item_count = t.item_count := by
  unfold delete_kt
  by_cases h : t.items.findIdx (fun it => Key.eq it.1 k) < t.items.length
  · rw [dif_pos h]
  · rw [dif_neg h]

theorem delete_kt_any_false (t : Table) (k : Key) (p : Key × Nat → Bool)
    (h : t.items.any p = false) : (delete_kt t k).1.items.any p = false := by
  unfold delete_kt
  by_cases hlt : t.items.findIdx (fun it => Key.eq it.1 k) < t.items.length
  · rw [dif_pos hlt]
    rw [List.any_eq_false] at h ⊢
    intro x hx
    exact h x (List.Sublist.mem hx (List.eraseIdx_sublist t.items _))
  · rw [dif_neg hlt]
    exact h

theorem delComponents_any_false (p : Key × Nat → Bool) :
    ∀ (fuel : Nat) (t : Table) (key : List Nat) (i : Nat),
      t.items.any p = false → (delComponents t key i fuel).items.any p = false
  | 0, _, _, _ => fun h => h
  | fuel + 1, t, key, i => fun h => by
    rw [delComponents]
    exact delComponents_any_false p fuel _ key (i + 1)
      (delete_kt_any_false t ⟨key, i⟩ p h)

theorem delComponents_item_count :
    ∀ (fuel : Nat) (t : Table) (key : List Nat) (i : Nat),
      (delComponents t key i fuel).item_count = t.item_count
  | 0, _, _, _ => rfl
  | fuel + 1, t, key, i => by
    rw [delComponents, delComponents_item_count fuel _ key (i + 1),
      delete_kt_item_count]

/-- C7: a zero-length or oversized (> 252 bytes) key makes del and
get_exact_entry return false with no error and no state change; an
oversized key makes form_key (the first step of add) raise the
unimplemented fault; every key of length in [1, 252] passes all these
length guards. -/
theorem C7_key_length_limits (t : Table) (key : List Nat)
    (hh : 0 ≤ t.handle)
    (hnull : ∀ it ∈ t.items, it.1.body = [] → it.1.count = 0) :
    (key.length = 0 ∨ FLINT_BTREE_MAX_KEY_LEN < key.length →
      del t key = (t, false, none) ∧ get_exact_entry t key = (false, none)) ∧
    (FLINT_BTREE_MAX_KEY_LEN < key.length →
      form_key key = Except.error (XErr.UnimplementedError "Key too long")) ∧
    (1 ≤ key.length → key.length ≤ FLINT_BTREE_MAX_KEY_LEN →
      form_key key = Except.ok (formKey key) ∧
      del t key = delMain t key ∧
      get_exact_entry t key =
        (t.items.any (fun it => Key.eq it.1 (formKey key)), none)) := by
  have h252 : FLINT_BTREE_MAX_KEY_LEN = 252 := rfl
  have hhn : ¬ t.handle < 0 := by omega
  refine ⟨?_, ?_, ?_⟩
  · intro hlen
    constructor
    · unfold del
      rw [if_neg hhn]
      rcases hlen with h0 | hbig
      · have hk : key = [] := List.length_eq_zero.mp h0
        rw [if_neg (by omega), if_pos hk]
      · rw [if_pos hbig]
    · unfold get_exact_entry
      rw [if_neg hhn]
      rcases hlen with h0 | hbig
      · have hk : key = [] := List.length_eq_zero.mp h0
        rw [if_neg (by omega)]
        have hany : t.items.any (fun it => Key.eq it.1 (formKey key)) = false := by
          rw [List.any_eq_false]
          intro x hx hxe
          have heqv := (Key.eq_iff x.1 (formKey key)).mp hxe
          subst hk
          have hc := hnull x hx heqv.1
          have h2 := heqv.2
          unfold countBytes formKey at h2
          rw [hc] at h2
          exact absurd h2 (by decide)
        rw [hany]
      · rw [if_pos hbig]
  · intro hbig
    unfold form_key
    rw [if_pos hbig]
  · intro h1 h2
    refine ⟨?_, ?_, ?_⟩
    · unfold form_key
      rw [if_neg (by omega)]
    · unfold del
      rw [if_neg hhn, if_neg (by omega),
        if_neg (by intro hk; rw [hk] at h1; exact absurd h1 (by decide))]
    · unfold get_exact_entry
      rw [if_neg hhn, if_neg (by omega)]

/-- A small open table whose leaf holds the null item and the key "a". -/
def tC7 : Table := ⟨0, [(nullKey, 0), (⟨[97], 1⟩, 1)], 1⟩

theorem C7_key_length_limits_witness :
    ((0 : Int) ≤ tC7.handle ∧ (∀ it ∈ tC7.items, it.1.body = [] → it.1.count = 0)) ∧
    del tC7 [] = (tC7, false, none) ∧
    get_exact_entry tC7 [] = (false, none) ∧
    form_key (List.replicate 253 97) =
      Except.error (XErr.UnimplementedError "Key too long") ∧
    form_key [97] = Except.ok (formKey [97]) :=
  ⟨⟨by decide, by decide⟩,
   ((C7_key_length_limits tC7 [] (by decide) (by decide)).1 (Or.inl rfl)).1,
   ((C7_key_length_limits tC7 [] (by decide) (by decide)).1 (Or.inl rfl)).2,
   (C7_key_length_limits tC7 (List.replicate 253 97) (by decide) (by decide)).2.1
     (by rw [List.length_replicate]; decide),
   ((C7_key_length_limits tC7 [97] (by decide) (by decide)).2.2 (by decide)
     (by decide)).1⟩

/-- C8: on a well-formed table (sorted keys, components_of at least 1 on
non-null items, two-byte component counters, item_count counting the
component-1 items), deleting a present key succeeds, afterwards
key_exists is false, and item_count has decreased by exactly 1. -/
theorem C8_del_removes_key (t : Table) (key : List Nat)
    (hh : 0 ≤ t.handle) (hlen1 : 1 ≤ key.length)
    (hlen2 : key.length ≤ FLINT_BTREE_MAX_KEY_LEN)
    (hsorted : sortedB (t.items.map Prod.fst) = true)
    (hcomp : ∀ it ∈ t.items, it.1.count ≠ 0 → 1 ≤ it.2)
    (hrange : ∀ it ∈ t.items, it.1.count < BYTE_PAIR_RANGE)
    (hic : t.item_count = t.items.countP (fun it => decide (it.1.count = 1)))
    (hpresent : t.items.any (fun it => Key.eq it.1 (formKey key)) = true) :
    (del t key).2.1 = true ∧ (del t key).2.2 = none ∧
    key_exists (del t key).1 key = false ∧
    (del t key).1.item_count + 1 = t.item_count := by
  have h252 : FLINT_BTREE_MAX_KEY_LEN = 252 := rfl
  have hhn : ¬ t.handle < 0 := by omega
  have hkne : key ≠ [] := by
    intro hk
    rw [hk] at hlen1
    exact absurd hlen1 (by decide)
  have hdel : del t key = delMain t key := by
    unfold del
    rw [if_neg hhn, if_neg (by omega), if_neg hkne]
  have hex : ∃ x, x ∈ t.items ∧ (fun it => Key.eq it.1 (formKey key)) x = true :=
    List.any_eq_true.mp hpresent
  set i := t.items.findIdx (fun it => Key.eq it.1 (formKey key)) with hi
  have hilt : i < t.items.length := List.findIdx_lt_length_of_exists hex
  set x := t.items.get ⟨i, hilt⟩ with hx
  have hsat := findIdx_get_sat (fun it => Key.eq it.1 (formKey key)) t.items hilt
  have hxp : Key.eq x.1 (formKey key) = true := hsat.1
  have hxmem : x ∈ t.items := hsat.2
  have heqv := (Key.eq_iff x.1 (formKey key)).mp hxp
  have hcount1 : x.1.count = 1 := by
    have h2 := heqv.2
    unfold countBytes formKey at h2
    simp only [List.cons.injEq] at h2
    norm_num at h2
    have hr := hrange x hxmem
    have hbp : BYTE_PAIR_RANGE = 65536 := by decide
    omega
  have hn1 : 1 ≤ x.2 := hcomp x hxmem (by rw [hcount1]; exact one_ne_zero)
  have hdk : delete_kt t (formKey key) = ({ t with items := t.items.eraseIdx i }, x.2) := by
    unfold delete_kt
    rw [dif_pos hilt]
  have herased : (t.items.eraseIdx i).any (fun it => Key.eq it.1 (formKey key)) = false := by
    rw [hi]
    exact any_eq_erase_findIdx (formKey key) t.items (sortedB_pairwise hsorted)
  have hmain : delMain t key =
      ({ delComponents { t with items := t.items.eraseIdx i } key 2 (x.2 - 1) with
         item_count := (delComponents { t with items := t.items.eraseIdx i } key 2
           (x.2 - 1)).item_count - 1 }, true, none) := by
    unfold delMain
    rw [hdk]
    rw [if_neg (by omega)]
  have hpos : 0 < t.item_count := by
    rw [hic, List.countP_pos_iff]
    refine ⟨x, hxmem, ?_⟩
    show decide (x.1.count = 1) = true
    rw [hcount1]
    rfl
  refine ⟨by rw [hdel, hmain], by rw [hdel, hmain], ?_, ?_⟩
  · rw [hdel, hmain]
    unfold key_exists
    rw [if_neg (by omega)]
    have hgoal : (delComponents { t with items := t.items.eraseIdx i } key 2
        (x.2 - 1)).items.any (fun it => Key.eq it.1 (formKey key)) = false :=
      delComponents_any_false _ (x.2 - 1) _ key 2 herased
    exact hgoal
  · rw [hdel, hmain]
    show (delComponents { t with items := t.items.eraseIdx i } key 2
      (x.2 - 1)).item_count - 1 + 1 = t.item_count
    rw [delComponents_item_count]
    show t.item_count - 1 + 1 = t.item_count
    omega

/-- A well-formed table holding keys "a" (two components) and "b". -/
def c8Table : Table :=
  ⟨0, [(nullKey, 0), (⟨[97], 1⟩, 2), (⟨[97], 2⟩, 2), (⟨[98], 1⟩, 1)], 2⟩

theorem C8_del_removes_key_witness :
    (c8Table.items.any (fun it => Key.eq it.1 (formKey [97])) = true ∧
     sortedB (c8Table.items.map Prod.fst) = true) ∧
    (del c8Table [97]).2.1 = true ∧ (del c8Table [97]).2.2 = none ∧
    key_exists (del c8Table [97]).1 [97] = false ∧
    (del c8Table [97]).1.item_count + 1 = c8Table.item_count :=
  match C8_del_removes_key c8Table [97] (by decide) (by decide) (by decide)
    (by decide) (by decide) (by decide) (by decide) (by decide) with
  | ⟨h1, h2, h3, h4⟩ => ⟨⟨by decide, by decide⟩, h1, h2, h3, h4⟩

end Flint
